import Mathlib

/-!
# osv-viewer: a shallow embedding of `main.go`

The program reads an OSV scanner report and answers two queries: `sources`
(one table row per scanned source with its number of vulnerabilities) and
`show <source id>` (every vulnerability of one source with its fix versions).

Conventions of the embedding.

* Go strings are Lean `String`s; the report comes out of `json.Unmarshal`, so
  every string in it is valid UTF-8. Text-level algorithms work on the list
  of characters (`String.data`).
* `fmt.Printf` to standard output is modelled by returning the printed text.
* The go-pretty library (`text.Color.Sprint`, `table.Writer`) is outside the
  repository: colouring and table rendering are parameters of the commands.
* `crypto/sha256` is modelled by the FIPS 180-4 algorithm it implements, on
  bytes and 32-bit words held in `Nat` with explicit reduction modulo `2 ^ 32`.
* `regexp` is modelled by a backtracking matcher with the leftmost-first
  (Perl-like) preference order Go documents for `regexp.MustCompile`.
-/

namespace OsvViewer

/-! ## Data model (`OSVScannerResult`, main.go 17-69) -/

/-- One entry of `events` (main.go 45-48). With `omitempty` and a plain `string`
field, an absent `fixed` key and an empty one both decode to `""`. -/
structure Event where
  Introduced : String
  Fixed : String
deriving DecidableEq, Repr

/-- One entry of `ranges` (main.go 43-49). The field `Type` is named `Kind`. -/
structure Range where
  Kind : String
  Events : List Event
deriving DecidableEq, Repr

/-- One entry of `affected` (main.go 37-53); only `ranges` is read. -/
structure Affected where
  Ranges : List Range
deriving DecidableEq, Repr

/-- One entry of `vulnerabilities` (main.go 29-63); the fields the commands read. -/
structure Vulnerability where
  ID : String
  Summary : String
  Details : String
  Affected : List Affected
deriving DecidableEq, Repr

/-- The `package` object of a scanned package (main.go 24-28). -/
structure PackageInfo where
  Name : String
  Version : String
  Ecosystem : String
deriving DecidableEq, Repr

/-- One entry of `packages` (main.go 23-67). -/
structure ScannedPackage where
  Package : PackageInfo
  Vulnerabilities : List Vulnerability
deriving DecidableEq, Repr

/-- The `source` object of a result (main.go 19-22). The field `Type` is named `Kind`. -/
structure Source where
  Path : String
  Kind : String
deriving DecidableEq, Repr

/-- One entry of `results` (main.go 18-68). -/
structure Result where
  Source : Source
  Packages : List ScannedPackage
deriving DecidableEq, Repr

/-- The decoded report (main.go 17-69), held by the global `results`. -/
structure OSVScannerResult where
  Results : List Result
deriving DecidableEq, Repr

/-! ## SHA-256 (`crypto/sha256`, FIPS 180-4) -/

/-- Addition of 32-bit words. -/
def add32 (a b : Nat) : Nat := (a + b) % 2 ^ 32

/-- Right rotation of a 32-bit word. -/
def rotr (n x : Nat) : Nat := ((x >>> n) ||| (x <<< (32 - n))) % 2 ^ 32

/-- The choice function `Ch`. -/
def ch (x y z : Nat) : Nat := (x &&& y) ^^^ ((x ^^^ 0xffffffff) &&& z)

/-- The majority function `Maj`. -/
def maj (x y z : Nat) : Nat := (x &&& y) ^^^ (x &&& z) ^^^ (y &&& z)

def bigSigma0 (x : Nat) : Nat := rotr 2 x ^^^ rotr 13 x ^^^ rotr 22 x

def bigSigma1 (x : Nat) : Nat := rotr 6 x ^^^ rotr 11 x ^^^ rotr 25 x

def smallSigma0 (x : Nat) : Nat := rotr 7 x ^^^ rotr 18 x ^^^ (x >>> 3)

def smallSigma1 (x : Nat) : Nat := rotr 17 x ^^^ rotr 19 x ^^^ (x >>> 10)

/-- The 64 round constants. -/
def sha256K : List Nat :=
  [0x428a2f98, 0x71374491, 0xb5c0fbcf, 0xe9b5dba5, 0x3956c25b, 0x59f111f1, 0x923f82a4, 0xab1c5ed5,
   0xd807aa98, 0x12835b01, 0x243185be, 0x550c7dc3, 0x72be5d74, 0x80deb1fe, 0x9bdc06a7, 0xc19bf174,
   0xe49b69c1, 0xefbe4786, 0x0fc19dc6, 0x240ca1cc, 0x2de92c6f, 0x4a7484aa, 0x5cb0a9dc, 0x76f988da,
   0x983e5152, 0xa831c66d, 0xb00327c8, 0xbf597fc7, 0xc6e00bf3, 0xd5a79147, 0x06ca6351, 0x14292967,
   0x27b70a85, 0x2e1b2138, 0x4d2c6dfc, 0x53380d13, 0x650a7354, 0x766a0abb, 0x81c2c92e, 0x92722c85,
   0xa2bfe8a1, 0xa81a664b, 0xc24b8b70, 0xc76c51a3, 0xd192e819, 0xd6990624, 0xf40e3585, 0x106aa070,
   0x19a4c116, 0x1e376c08, 0x2748774c, 0x34b0bcb5, 0x391c0cb3, 0x4ed8aa4a, 0x5b9cca4f, 0x682e6ff3,
   0x748f82ee, 0x78a5636f, 0x84c87814, 0x8cc70208, 0x90befffa, 0xa4506ceb, 0xbef9a3f7, 0xc67178f2]

/-- The eight working words of the hash state. -/
structure Digest where
  h0 : Nat
  h1 : Nat
  h2 : Nat
  h3 : Nat
  h4 : Nat
  h5 : Nat
  h6 : Nat
  h7 : Nat
deriving DecidableEq, Repr

/-- The initial hash value. -/
def sha256Init : Digest :=
  ⟨0x6a09e667, 0xbb67ae85, 0x3c6ef372, 0xa54ff53a, 0x510e527f, 0x9b05688c, 0x1f83d9ab, 0x5be0cd19⟩

/-- Big-endian 32-bit words of a block of bytes. -/
def beWords : List Nat → List Nat
  | a :: b :: c :: d :: rest => (((a * 256 + b) * 256 + c) * 256 + d) :: beWords rest
  | _ => []

/-- Extends the message schedule, kept most recent word first, by `n` words:
`W[t] = σ1(W[t-2]) + W[t-7] + σ0(W[t-15]) + W[t-16]`. -/
def extendSchedule : Nat → List Nat → List Nat
  | 0, w => w
  | n + 1, w =>
    extendSchedule n
      (add32 (add32 (add32 (smallSigma1 (w.getD 1 0)) (w.getD 6 0)) (smallSigma0 (w.getD 14 0)))
        (w.getD 15 0) :: w)

/-- The 64 schedule words of a 64-byte block. -/
def schedule (block : List Nat) : List Nat :=
  (extendSchedule 48 (beWords block).reverse).reverse

/-- One round of the compression function, on round constant and schedule word. -/
def round (s : Digest) (kw : Nat × Nat) : Digest :=
  let t1 := add32 (add32 (add32 (add32 s.h7 (bigSigma1 s.h4)) (ch s.h4 s.h5 s.h6)) kw.1) kw.2
  let t2 := add32 (bigSigma0 s.h0) (maj s.h0 s.h1 s.h2)
  ⟨add32 t1 t2, s.h0, s.h1, s.h2, add32 s.h3 t1, s.h4, s.h5, s.h6⟩

/-- The compression function on one 64-byte block. -/
def compress (h : Digest) (block : List Nat) : Digest :=
  let s := (sha256K.zip (schedule block)).foldl round h
  ⟨add32 h.h0 s.h0, add32 h.h1 s.h1, add32 h.h2 s.h2, add32 h.h3 s.h3,
   add32 h.h4 s.h4, add32 h.h5 s.h5, add32 h.h6 s.h6, add32 h.h7 s.h7⟩

/-- Big-endian bytes of `x`, `width` of them. -/
def beBytes (width : Nat) (x : Nat) : List Nat :=
  (List.range width).reverse.map (fun i => (x >>> (8 * i)) % 256)

/-- Message padding: a `0x80` byte, zeros up to 56 modulo 64, the bit length on 8 bytes. -/
def pad (msg : List Nat) : List Nat :=
  msg ++ 0x80 :: List.replicate ((55 + 64 - msg.length % 64) % 64) 0
    ++ beBytes 8 ((8 * msg.length) % 2 ^ 64)

/-- Compresses `n` consecutive 64-byte blocks. -/
def blocks : Nat → List Nat → Digest → Digest
  | 0, _, h => h
  | n + 1, bytes, h => blocks n (bytes.drop 64) (compress h (bytes.take 64))

/-- The 32-byte SHA-256 digest of a byte string (`h.Write(b); h.Sum(nil)`). -/
def sha256 (msg : List Nat) : List Nat :=
  let p := pad msg
  let d := blocks (p.length / 64) p sha256Init
  [d.h0, d.h1, d.h2, d.h3, d.h4, d.h5, d.h6, d.h7].flatMap (beBytes 4)

/-- Two lowercase hexadecimal digits of a byte (`%x` on a byte slice). -/
def hexByte (b : Nat) : List Char := [Nat.digitChar (b / 16 % 16), Nat.digitChar (b % 16)]

/-- The lowercase hex encoding of a byte string (`fmt.Sprintf("%x", bytes)`). -/
def hexEncode (bytes : List Nat) : String := ⟨bytes.flatMap hexByte⟩

/-- The bytes of a string (`[]byte(path)`): its UTF-8 encoding. -/
def utf8 (s : String) : List Nat :=
  s.data.flatMap (fun c => (String.utf8EncodeChar c).map UInt8.toNat)

/-- Source identifier (main.go 183-187): the first 12 characters of the hex
encoding of the SHA-256 digest of the path. The Go slice `[:12]` panics on a
shorter string; `hexEncode_sha256_length` shows the string has 64 characters. -/
def hash (path : String) : String := ⟨(hexEncode (sha256 (utf8 path))).data.take 12⟩

/-! ## Fix versions (main.go 152-172) -/

/-- Go's `strings.Join(elems, sep)`: the elements with `sep` between neighbours. -/
def stringsJoin : List String → String → String
  | [], _ => ""
  | a :: rest, sep => rest.foldl (fun b s => b ++ sep ++ s) a

/-- The inner loops of main.go 155-163: the `fixedVersions` slice of one affected
entry, to which every event with a non-empty `Fixed` appends its value. -/
def fixedVersions (aff : Affected) : List String :=
  aff.Ranges.foldl
    (fun acc affr =>
      affr.Events.foldl (fun acc affre => if affre.Fixed = "" then acc else acc ++ [affre.Fixed])
        acc)
    []

/-- The loop of main.go 153-165: the `fixed` slice of a vulnerability, to which
every affected entry appends the join of its `fixedVersions`. -/
def fixedList (vuln : Vulnerability) : List String :=
  vuln.Affected.foldl (fun fixed aff => fixed ++ [stringsJoin (fixedVersions aff) ", "]) []

/-- The fix-versions text printed for a vulnerability (main.go 172). -/
def fixString (vuln : Vulnerability) : String := stringsJoin (fixedList vuln) ", "

/-! ## Text normalizer (main.go 138 and 173) -/

/-- The fragment of regular-expression syntax the pattern of main.go 138 uses. -/
inductive Regex where
  | lit (c : Char)
  | cat (a b : Regex)
  | alt (a b : Regex)
  | opt (a : Regex)
  | atLeast (n : Nat) (a : Regex)
deriving Repr

/-- Greedy iteration: the remainders reachable by repeating `step`, the longest
chains of repetitions first and stopping last. `fuel` bounds the number of
repetitions. -/
def iterate (step : List Char → List (List Char)) : Nat → List Char → List (List Char)
  | 0, s => [s]
  | fuel + 1, s => (step s).flatMap (iterate step fuel) ++ [s]

/-- The remainders after `n` mandatory repetitions of `step` followed by `k`. -/
def times (step k : List Char → List (List Char)) : Nat → List Char → List (List Char)
  | 0, s => k s
  | n + 1, s => (step s).flatMap (times step k n)

/-- Backtracking matcher: every remainder of the input after a match of the
expression at the start of the input, in the preference order of a
leftmost-first engine (first alternative first, greedy `?` and `{n,}`). The
iteration of `{n,}` is bounded by the length of the input, which is enough
whenever each repetition consumes a character. -/
def Regex.run : Regex → List Char → List (List Char)
  | .lit c, s =>
    match s with
    | d :: t => if d = c then [t] else []
    | [] => []
  | .cat a b, s => (a.run s).flatMap (fun r => b.run r)
  | .alt a b, s => a.run s ++ b.run s
  | .opt a, s => a.run s ++ [s]
  | .atLeast n a, s => times (fun r => a.run r) (iterate (fun r => a.run r) s.length) n s

/-- The preferred match at the start of the input: what remains after it. -/
def Regex.matchAt (re : Regex) (s : List Char) : Option (List Char) := (re.run s).head?

/-- Go's `ReplaceAllString` with a replacement free of `$`: scanning from the
left, the leftmost match is replaced and the scan resumes after it; a
character at which no match starts is copied. A match of length zero, which
the pattern of this program cannot produce, inserts the replacement before
the character it precedes. `fuel` bounds the number of steps. -/
def replaceAll (re : Regex) (repl : List Char) : Nat → List Char → List Char
  | 0, s => s
  | _ + 1, [] => []
  | fuel + 1, c :: t =>
    match re.matchAt (c :: t) with
    | some rest =>
      if rest.length < (c :: t).length then repl ++ replaceAll re repl fuel rest
      else repl ++ c :: replaceAll re repl fuel t
    | none => c :: replaceAll re repl fuel t

/-- The pattern of main.go 138: `(\r\n?|\n){2,}`. -/
def rg : Regex :=
  .atLeast 2 (.alt (.cat (.lit '\r') (.opt (.lit '\n'))) (.lit '\n'))

/-- The normalizer on characters: `rg.ReplaceAllString(s, "\n\n")`. -/
def normalizeChars (s : List Char) : List Char := replaceAll rg ['\n', '\n'] s.length s

/-- The normalizer of main.go 173: `rg.ReplaceAllString(vuln.Details, "\n\n")`. -/
def normalize (s : String) : String := ⟨normalizeChars s.data⟩

/-! ## The `show` command (main.go 140-181) -/

/-- The two colours of go-pretty the program uses. -/
inductive Color where
  | FgRed
  | FgHiBlack
deriving DecidableEq, Repr

/-- The package label of main.go 149: `fmt.Sprintf("%v %v", name, version)`. -/
def pkgLabel (rp : ScannedPackage) : String := rp.Package.Name ++ " " ++ rp.Package.Version

/-- The text of the `fmt.Printf` of main.go 168-174 for one vulnerability.
`sprint` stands for go-pretty's `text.Color.Sprint`. -/
def vulnBlock (sprint : Color → String → String) (pkg : String) (vuln : Vulnerability) : String :=
  "\n" ++ pkg ++ ": " ++ sprint .FgRed ("(" ++ vuln.ID ++ ") " ++ vuln.Summary)
    ++ " (fix: " ++ fixString vuln ++ ")\n"
    ++ sprint .FgHiBlack (normalize vuln.Details) ++ "\n"

/-- The loops of main.go 148-176 over the packages of the matched source and
their vulnerabilities: the writes made, one per vulnerability, after `out`. -/
def showPackages (sprint : Color → String → String) (pkgs : List ScannedPackage)
    (out : List String) : List String :=
  pkgs.foldl
    (fun out rp =>
      rp.Vulnerabilities.foldl (fun out vuln => out ++ [vulnBlock sprint (pkgLabel rp) vuln]) out)
    out

/-- The loop of main.go 141-180 over the results: the writes made to standard
output, one entry per `fmt.Printf`, and the returned error (`nil` is `.ok ()`). -/
def showLoop (sprint : Color → String → String) :
    List Result → String → List String × Except String Unit
  | [], arg => ([], .error ("no such source: " ++ arg))
  | r :: rest, arg =>
    if hash r.Source.Path ≠ arg then showLoop sprint rest arg
    else (showPackages sprint r.Packages ["Source: " ++ r.Source.Path ++ "\n"], .ok ())

/-- The command `show` (main.go 140-181) on the global `results` and the single
argument `args[0]` that `cobra.ExactArgs(1)` guarantees. -/
def runShowCommand (sprint : Color → String → String) (results : OSVScannerResult)
    (arg : String) : List String × Except String Unit :=
  showLoop sprint results.Results arg

/-! ## The `sources` command (main.go 119-136) -/

/-- The sort modes of go-pretty's `table.SortBy`. -/
inductive SortMode where
  | Asc
  | AscNumeric
  | Dsc
  | DscNumeric
deriving DecidableEq, Repr

/-- The sort request of go-pretty, `table.SortBy`, by column name. -/
structure SortBy where
  Name : String
  Mode : SortMode
deriving DecidableEq, Repr

/-- What the program hands to go-pretty's `table.Writer`: the header, the sort
request and the rows in the order of the `AppendRow` calls. -/
structure Table where
  Header : List String
  SortBys : List SortBy
  Rows : List (List String)
deriving DecidableEq, Repr

/-- The table after main.go 122-124. -/
def newTable : Table :=
  ⟨["source id", "source", "total"], [⟨"total", .DscNumeric⟩], []⟩

/-- The call `t.AppendRow(row)`. -/
def Table.AppendRow (t : Table) (row : List String) : Table :=
  ⟨t.Header, t.SortBys, t.Rows ++ [row]⟩

/-- The inner loop of main.go 127-131 on one result: the pair `(vuln, total)`
after it. Go's `int` cannot overflow here: the sum of the lengths of slices
held in memory at once is below `2 ^ 63`. -/
def countSource (r : Result) (total : Nat) : Nat × Nat :=
  r.Packages.foldl
    (fun acc rp => (acc.1 + rp.Vulnerabilities.length, acc.2 + rp.Vulnerabilities.length))
    (0, total)

/-- The loop of main.go 126-133: the pair `(total, t)` after it; `%v` of an
`int` is its decimal representation. -/
def sourcesLoop (results : OSVScannerResult) : Nat × Table :=
  results.Results.foldl
    (fun acc r =>
      ((countSource r acc.1).2,
        acc.2.AppendRow
          [hash r.Source.Path, r.Source.Path, toString (countSource r acc.1).1]))
    (0, newTable)

/-- The command `sources` (main.go 119-136): its two writes to standard output.
`render` stands for go-pretty's `t.Render()`. -/
def runSourcesCommand (render : Table → String) (results : OSVScannerResult) : List String :=
  ["Total of vulnerabilities: " ++ toString (sourcesLoop results).1 ++ "\n\n",
   render (sourcesLoop results).2 ++ "\n"]

/-! ## SHA-256 in the words of FIPS 180-4, and the hex text of bytes -/

/-- FIPS 180-4, 5.1.1, in bytes: the number of zero bytes of the padding, the
smallest `z` with `len + 1 + z` congruent to 56 modulo 64. -/
def fipsZeroBytes (len : Nat) : Nat :=
  ((List.range 64).find? (fun z => (len + 1 + z) % 64 = 56)).getD 0

/-- FIPS 180-4, 5.1.1: the padded message: the message, the byte `0x80`, the
zero bytes, and the length of the message in bits as a 64-bit big-endian number. -/
def fipsPadded (msg : List Nat) : List Nat :=
  msg ++ [0x80] ++ List.replicate (fipsZeroBytes msg.length) 0
    ++ (List.range 8).map (fun j => (8 * msg.length) / 256 ^ (7 - j) % 256)

/-- FIPS 180-4, 5.2.1: word `t` of block `i` of the padded message, big-endian. -/
def fipsWord (padded : List Nat) (i t : Nat) : Nat :=
  padded.getD (64 * i + 4 * t) 0 * 2 ^ 24 + padded.getD (64 * i + 4 * t + 1) 0 * 2 ^ 16
    + padded.getD (64 * i + 4 * t + 2) 0 * 2 ^ 8 + padded.getD (64 * i + 4 * t + 3) 0

/-- FIPS 180-4, 6.2.2 step 1: the message schedule `W t` of a block with words `m`. -/
def fipsW (m : Nat → Nat) (t : Nat) : Nat :=
  if t < 16 then m t
  else
    (smallSigma1 (fipsW m (t - 2)) + fipsW m (t - 7) + smallSigma0 (fipsW m (t - 15))
      + fipsW m (t - 16)) % 2 ^ 32
termination_by t
decreasing_by all_goals omega

/-- FIPS 180-4, 6.2.2 step 3: one step on the working variables `a` to `h`
(held in `h0` to `h7`) with constant `k` and schedule word `w`. -/
def fipsStep (s : Digest) (k w : Nat) : Digest :=
  let t1 := (s.h7 + bigSigma1 s.h4 + ch s.h4 s.h5 s.h6 + k + w) % 2 ^ 32
  let t2 := (bigSigma0 s.h0 + maj s.h0 s.h1 s.h2) % 2 ^ 32
  ⟨(t1 + t2) % 2 ^ 32, s.h0, s.h1, s.h2, (s.h3 + t1) % 2 ^ 32, s.h4, s.h5, s.h6⟩

/-- The working variables after `t` steps, started from the hash value `h`. -/
def fipsWorking (w : Nat → Nat) (h : Digest) : Nat → Digest
  | 0 => h
  | t + 1 => fipsStep (fipsWorking w h t) (sha256K.getD t 0) (w t)

/-- FIPS 180-4, 6.2.2 step 4: the hash value after `i` blocks of the padded message. -/
def fipsH (padded : List Nat) : Nat → Digest
  | 0 => sha256Init
  | i + 1 =>
    let h := fipsH padded i
    let s := fipsWorking (fipsW (fipsWord padded i)) h 64
    ⟨(s.h0 + h.h0) % 2 ^ 32, (s.h1 + h.h1) % 2 ^ 32, (s.h2 + h.h2) % 2 ^ 32,
     (s.h3 + h.h3) % 2 ^ 32, (s.h4 + h.h4) % 2 ^ 32, (s.h5 + h.h5) % 2 ^ 32,
     (s.h6 + h.h6) % 2 ^ 32, (s.h7 + h.h7) % 2 ^ 32⟩

/-- FIPS 180-4, 6.2.2: the SHA-256 digest of a message of bytes, the final
hash value as 32 bytes, each word big-endian. -/
def fipsDigest (msg : List Nat) : List Nat :=
  let d := fipsH (fipsPadded msg) ((fipsPadded msg).length / 64)
  [d.h0, d.h1, d.h2, d.h3, d.h4, d.h5, d.h6, d.h7].flatMap
    (fun w => [w / 2 ^ 24 % 256, w / 2 ^ 16 % 256, w / 2 ^ 8 % 256, w % 256])

/-- The lowercase hexadecimal text of bytes: two digits per byte, the digits of
the byte in base 16 with a leading `0` below 16. -/
def hexText (bytes : List Nat) : List Char :=
  bytes.flatMap (fun b => (if b < 16 then ['0'] else []) ++ Nat.toDigits 16 b)

/-! ## Reading a table row -/

/-- The number a decimal text denotes, as a numeric sort of the column reads it. -/
def decimalValue (s : String) : Nat :=
  s.data.foldl (fun acc c => 10 * acc + (c.toNat - 48)) 0

/-- The count held by the `total` column (the third cell) of a table row. -/
def rowCount (row : List String) : Nat := decimalValue (row.getD 2 "")

/-- The number of vulnerability entries of a source: the sum over its packages. -/
def vulnCount (r : Result) : Nat :=
  (r.Packages.map (fun rp => rp.Vulnerabilities.length)).sum

/-! ## Reading the fix versions -/

/-- Every present (non-empty) `fixed` value of a vulnerability, in document
order across its affected entries, their ranges and their events. -/
def allFixed (vuln : Vulnerability) : List String :=
  (((vuln.Affected.flatMap (fun aff => aff.Ranges)).flatMap (fun r => r.Events)).map
    (fun e => e.Fixed)).filter (fun x => x ≠ "")

/-- Every present (non-empty) `fixed` value of one affected entry, in document order. -/
def presentFixed (aff : Affected) : List String :=
  ((aff.Ranges.flatMap (fun r => r.Events)).map (fun e => e.Fixed)).filter (fun x => x ≠ "")

/-- A text is blank: it holds no character other than white space. -/
def isBlank (s : String) : Bool := s.data.all Char.isWhitespace

/-- The vulnerability of the fixed-version example: two affected entries, one
with the event `fixed: "1.2.3"`, the other with the event `introduced: "0.1.0"`. -/
def exampleVuln : Vulnerability :=
  ⟨"GHSA-0000", "summary", "details",
   [⟨[⟨"SEMVER", [⟨"", "1.2.3"⟩]⟩]⟩, ⟨[⟨"SEMVER", [⟨"0.1.0", ""⟩]⟩]⟩]⟩

/-- A vulnerability with two affected entries and no `fixed` value at all. -/
def unfixedVuln : Vulnerability :=
  ⟨"GHSA-0001", "summary", "details",
   [⟨[⟨"SEMVER", [⟨"0.1.0", ""⟩]⟩]⟩, ⟨[⟨"SEMVER", [⟨"0.2.0", ""⟩]⟩]⟩]⟩

/-! ## Reading the normalizer -/

/-- A carriage return or a line feed. -/
def isBreakChar (c : Char) : Bool := c == '\r' || c == '\n'

/-- One repetition of the group of the pattern: `\r\n?|\n`. -/
def breakToken : Regex := .alt (.cat (.lit '\r') (.opt (.lit '\n'))) (.lit '\n')

/-- The remainders after one repetition of the group of the pattern. -/
def brk (s : List Char) : List (List Char) := breakToken.run s

/-- The text starts with a carriage return or a line feed. -/
def startsWithBreak : List Char → Bool
  | [] => false
  | c :: _ => isBreakChar c

/-- The number of line breaks of a text made of line breaks only, a line
break being a line feed or a carriage return followed by a line feed; `none`
when the text holds anything else. -/
def lineBreakCount : List Char → Option Nat
  | [] => some 0
  | c :: t =>
    if c = '\n' then (lineBreakCount t).map (fun k => k + 1)
    else
      match t with
      | [] => none
      | d :: u =>
        if c = '\r' ∧ d = '\n' then (lineBreakCount u).map (fun k => k + 1) else none

/-- The text after one line break at its start, if there is one. -/
def stripLineBreak : List Char → Option (List Char)
  | [] => none
  | c :: t =>
    if c = '\n' then some t
    else
      match t with
      | [] => none
      | d :: u => if c = '\r' ∧ d = '\n' then some u else none

/-- The text holds two consecutive line breaks somewhere. -/
def hasLineBreakRun : List Char → Bool
  | [] => false
  | c :: t => ((stripLineBreak (c :: t)).bind stripLineBreak).isSome || hasLineBreakRun t

/-- The text holds two adjacent characters that are each a carriage return or
a line feed. -/
def hasBreakPair : List Char → Bool
  | [] => false
  | c :: t => (isBreakChar c && startsWithBreak t) || hasBreakPair t

/-! ## The normalizer in words -/

/-- The text cut into its maximal runs: the maximal blocks of consecutive
break characters (carriage return, line feed) and the maximal blocks of
consecutive other characters, in order. -/
def runs : List Char → List (List Char)
  | [] => []
  | c :: t =>
    match runs t with
    | [] => [[c]]
    | [] :: gs => [c] :: gs
    | (d :: g) :: gs =>
      if isBreakChar c = isBreakChar d then (c :: d :: g) :: gs else [c] :: (d :: g) :: gs

/-- What becomes of a maximal run: two line feeds for two or more break
characters, the run itself otherwise. -/
def collapseRun (g : List Char) : List Char :=
  if 2 ≤ g.length ∧ g.all isBreakChar = true then ['\n', '\n'] else g

/-- The text with every maximal run of two or more break characters replaced
by two line feeds and every other character left in place. -/
def collapseRuns (s : List Char) : List Char := ((runs s).map collapseRun).flatten

/-! ## Deleting the events without fix -/

/-- The range without its events whose `Fixed` is empty. -/
def Range.dropEmptyFixed (r : Range) : Range :=
  ⟨r.Kind, r.Events.filter (fun e => e.Fixed ≠ "")⟩

/-- The affected entry without the events whose `Fixed` is empty. -/
def Affected.dropEmptyFixed (aff : Affected) : Affected :=
  ⟨aff.Ranges.map Range.dropEmptyFixed⟩

/-- The vulnerability without the events whose `Fixed` is empty. -/
def Vulnerability.dropEmptyFixed (vuln : Vulnerability) : Vulnerability :=
  ⟨vuln.ID, vuln.Summary, vuln.Details, vuln.Affected.map Affected.dropEmptyFixed⟩

/-! ## Example reports -/

/-- A vulnerability fixed in `1.0.1`, under one affected entry. -/
def leftPadVuln : Vulnerability :=
  ⟨"GHSA-0000", "summary", "details", [⟨[⟨"SEMVER", [⟨"", "1.0.1"⟩]⟩]⟩]⟩

/-- A report whose two sources share the path `lockfile.json`: the first holds
`left-pad 1.0.0` with one vulnerability, the second `right-pad 2.0.0` with another. -/
def twinReport : OSVScannerResult :=
  ⟨[⟨⟨"lockfile.json", "lockfile"⟩, [⟨⟨"left-pad", "1.0.0", "npm"⟩, [leftPadVuln]⟩]⟩,
    ⟨⟨"lockfile.json", "lockfile"⟩, [⟨⟨"right-pad", "2.0.0", "npm"⟩, [unfixedVuln]⟩]⟩]⟩

/-- A report with one source `go.mod` holding two packages: `alpha 1.0.0` with
the vulnerabilities `A-1` and `A-2`, then `beta 2.0.0` with `B-1`. -/
def orderedReport : OSVScannerResult :=
  ⟨[⟨⟨"go.mod", "lockfile"⟩,
      [⟨⟨"alpha", "1.0.0", "Go"⟩, [⟨"A-1", "one", "d1", []⟩, ⟨"A-2", "two", "d2", []⟩]⟩,
       ⟨⟨"beta", "2.0.0", "Go"⟩, [⟨"B-1", "three", "d3", []⟩]⟩]⟩]⟩

/-! ## Theorems: the `show` lookup -/

theorem showLoop_error_iff (sprint : Color → String → String) (rs : List Result) (arg : String) :
    (∃ e, (showLoop sprint rs arg).2 = .error e) ↔ ∀ r ∈ rs, hash r.Source.Path ≠ arg := by
  induction rs with
  | nil => simp [showLoop]
  | cons r rest ih =>
    by_cases h : hash r.Source.Path = arg
    · simp [showLoop, h]
    · simp [showLoop, h, ih]

theorem showLoop_error_eq (sprint : Color → String → String) (rs : List Result) (arg e : String)
    (h : (showLoop sprint rs arg).2 = .error e) :
    showLoop sprint rs arg = ([], .error ("no such source: " ++ arg)) := by
  induction rs with
  | nil => simp [showLoop]
  | cons r rest ih =>
    by_cases hr : hash r.Source.Path = arg
    · simp [showLoop, hr] at h
    · simp only [showLoop, ne_eq, hr, not_false_eq_true, if_true] at h ⊢
      exact ih h

/-- C1. The `show` command fails, with the error `no such source: <token>`,
exactly when no source of the report has `hash(path)` equal to the token; any
failure carries that message and has written nothing to standard output. -/
theorem runShowCommand_fails_iff_no_source (sprint : Color → String → String)
    (results : OSVScannerResult) (arg : String) :
    ((runShowCommand sprint results arg).2 = .error ("no such source: " ++ arg)
        ↔ ∀ r ∈ results.Results, hash r.Source.Path ≠ arg)
      ∧ ∀ e, (runShowCommand sprint results arg).2 = .error e →
          e = "no such source: " ++ arg ∧ (runShowCommand sprint results arg).1 = [] := by
  unfold runShowCommand
  refine ⟨⟨fun h => (showLoop_error_iff sprint _ arg).1 ⟨_, h⟩, fun h => ?_⟩, fun e h => ?_⟩
  · obtain ⟨e, he⟩ := (showLoop_error_iff sprint _ arg).2 h
    rw [showLoop_error_eq sprint _ arg e he]
  · have h2 := showLoop_error_eq sprint _ arg e h
    rw [h2] at h
    simp only [Except.error.injEq] at h
    exact ⟨h.symm, by rw [h2]⟩

/-! ## Theorems: the `sources` command -/

theorem countSource_foldl (pkgs : List ScannedPackage) (a b : Nat) :
    pkgs.foldl
        (fun acc rp => (acc.1 + rp.Vulnerabilities.length, acc.2 + rp.Vulnerabilities.length))
        (a, b)
      = (a + (pkgs.map (fun rp => rp.Vulnerabilities.length)).sum,
         b + (pkgs.map (fun rp => rp.Vulnerabilities.length)).sum) := by
  induction pkgs generalizing a b with
  | nil => simp
  | cons rp rest ih =>
    rw [List.foldl_cons, ih]
    simp [Nat.add_assoc]

theorem countSource_eq (r : Result) (total : Nat) :
    countSource r total = (vulnCount r, total + vulnCount r) := by
  simp [countSource, vulnCount, countSource_foldl]

/-- The row appended for a source. -/
theorem sourcesLoop_foldl (rs : List Result) (n : Nat) (t : Table) :
    rs.foldl
        (fun acc r =>
          ((countSource r acc.1).2,
            acc.2.AppendRow
              [hash r.Source.Path, r.Source.Path, toString (countSource r acc.1).1]))
        (n, t)
      = (n + (rs.map vulnCount).sum,
         ⟨t.Header, t.SortBys,
          t.Rows ++ rs.map (fun r => [hash r.Source.Path, r.Source.Path, toString (vulnCount r)])⟩)
    := by
  induction rs generalizing n t with
  | nil => simp
  | cons r rest ih =>
    rw [List.foldl_cons, ih]
    simp [countSource_eq, Table.AppendRow, Nat.add_assoc]

theorem sourcesLoop_eq (results : OSVScannerResult) :
    sourcesLoop results
      = ((results.Results.map vulnCount).sum,
         ⟨["source id", "source", "total"], [⟨"total", .DscNumeric⟩],
          results.Results.map
            (fun r => [hash r.Source.Path, r.Source.Path, toString (vulnCount r)])⟩) := by
  simp [sourcesLoop, sourcesLoop_foldl, newTable]

theorem digitChar_value (m : Nat) (h : m < 10) : (Nat.digitChar m).toNat - 48 = m := by
  interval_cases m <;> rfl

theorem decimal_toDigitsCore (fuel n : Nat) (ds : List Char) (h : n < fuel) :
    (Nat.toDigitsCore 10 fuel n ds).foldl (fun acc c => 10 * acc + (c.toNat - 48)) 0
      = ds.foldl (fun acc c => 10 * acc + (c.toNat - 48)) n := by
  induction fuel generalizing n ds with
  | zero => omega
  | succ fuel ih =>
    unfold Nat.toDigitsCore
    by_cases h0 : n / 10 = 0
    · have hn : n < 10 := by omega
      simp only [h0, if_true, List.foldl_cons, Nat.mul_zero, Nat.zero_add]
      rw [Nat.mod_eq_of_lt hn, digitChar_value n hn]
    · simp only [h0, if_false]
      rw [ih (n / 10) _ (by omega)]
      simp only [List.foldl_cons]
      rw [digitChar_value (n % 10) (Nat.mod_lt _ (by decide))]
      congr 1
      omega

theorem decimalValue_toString (n : Nat) : decimalValue (toString n) = n := by
  show (Nat.toDigitsCore 10 (n + 1) n []).foldl _ 0 = n
  rw [decimal_toDigitsCore (n + 1) n [] (by omega)]
  rfl

/-- C2. The rows follow the sources of the report in order, the row of a
source naming its path, and the count in that row is the sum, over the
packages of the source, of the number of vulnerability entries of the package
(the cell holds its decimal text); nothing is deduplicated, so one
vulnerability listed under two packages of a source gives the count 2. -/
theorem sources_row_count_is_sum (results : OSVScannerResult) :
    (sourcesLoop results).2.Rows.map (fun row => (row.getD 1 "", rowCount row))
        = results.Results.map
            (fun r =>
              (r.Source.Path, (r.Packages.map (fun rp => rp.Vulnerabilities.length)).sum))
      ∧ (sourcesLoop results).2.Rows.map (fun row => row.getD 2 "")
        = results.Results.map
            (fun r => toString (r.Packages.map (fun rp => rp.Vulnerabilities.length)).sum)
      ∧ ∀ (src : Source) (p q : PackageInfo) (v : Vulnerability),
          (sourcesLoop ⟨[⟨src, [⟨p, [v]⟩, ⟨q, [v]⟩]⟩]⟩).2.Rows.map rowCount = [2] := by
  have key : ∀ res : OSVScannerResult, (sourcesLoop res).2.Rows.map rowCount
      = res.Results.map
          (fun r => (r.Packages.map (fun rp => rp.Vulnerabilities.length)).sum) := by
    intro res
    simp [sourcesLoop_eq, rowCount, decimalValue_toString, vulnCount, Function.comp_def]
  refine ⟨?_, ?_, ?_⟩
  · simp [sourcesLoop_eq, rowCount, decimalValue_toString, vulnCount, Function.comp_def]
  · simp [sourcesLoop_eq, vulnCount, Function.comp_def]
  · intro src p q v
    rw [key]
    rfl

/-- C3. The total written by `sources` in `Total of vulnerabilities: N` is the
sum of the counts of all the rows handed to the table. -/
theorem sources_total_is_sum_of_rows (render : Table → String) (results : OSVScannerResult) :
    (runSourcesCommand render results).head?
        = some ("Total of vulnerabilities: "
            ++ toString (((sourcesLoop results).2.Rows.map rowCount).sum) ++ "\n\n")
      ∧ (sourcesLoop results).1 = ((sourcesLoop results).2.Rows.map rowCount).sum := by
  have h : (sourcesLoop results).1 = ((sourcesLoop results).2.Rows.map rowCount).sum := by
    simp [sourcesLoop_eq, rowCount, decimalValue_toString, Function.comp_def]
  refine ⟨?_, h⟩
  simp only [runSourcesCommand, List.head?_cons]
  rw [← h]

/-! ## Theorems: fix versions -/

theorem stringsJoin_foldl (rest : List String) (a b sep : String) :
    rest.foldl (fun x s => x ++ sep ++ s) (a ++ sep ++ b)
      = a ++ sep ++ rest.foldl (fun x s => x ++ sep ++ s) b := by
  induction rest generalizing b with
  | nil => simp
  | cons c rest ih =>
    simp only [List.foldl_cons]
    rw [← ih]
    simp [String.append_assoc]

theorem stringsJoin_cons_cons (a b : String) (rest : List String) (sep : String) :
    stringsJoin (a :: b :: rest) sep = a ++ sep ++ stringsJoin (b :: rest) sep := by
  simp [stringsJoin, stringsJoin_foldl]

theorem stringsJoin_singleton (a sep : String) : stringsJoin [a] sep = a := rfl

theorem stringsJoin_append (xs ys : List String) (sep : String) (hx : xs ≠ []) (hy : ys ≠ []) :
    stringsJoin (xs ++ ys) sep = stringsJoin xs sep ++ sep ++ stringsJoin ys sep := by
  induction xs with
  | nil => exact absurd rfl hx
  | cons a xs ih =>
    cases xs with
    | nil =>
      cases ys with
      | nil => exact absurd rfl hy
      | cons b ys => simp [stringsJoin_cons_cons, stringsJoin_singleton]
    | cons a2 xs =>
      have h := ih (by simp)
      simp only [List.cons_append] at h ⊢
      rw [stringsJoin_cons_cons, h, stringsJoin_cons_cons]
      simp [String.append_assoc]

theorem stringsJoin_length (l : List String) (sep : String) :
    (stringsJoin l sep).length
      = (l.map String.length).sum + sep.length * (l.length - 1) := by
  induction l with
  | nil => rfl
  | cons a l ih =>
    cases l with
    | nil => simp [stringsJoin_singleton]
    | cons b l =>
      rw [stringsJoin_cons_cons, String.length_append, String.length_append, ih]
      simp only [List.map_cons, List.sum_cons, List.length_cons, Nat.add_sub_cancel]
      rw [Nat.mul_add]
      omega

theorem events_foldl (es : List Event) (acc : List String) :
    es.foldl (fun acc affre => if affre.Fixed = "" then acc else acc ++ [affre.Fixed]) acc
      = acc ++ (es.map (fun e => e.Fixed)).filter (fun x => x ≠ "") := by
  induction es generalizing acc with
  | nil => simp
  | cons e es ih =>
    rw [List.foldl_cons, ih]
    by_cases h : e.Fixed = "" <;> simp [h]

theorem ranges_foldl (rs : List Range) (acc : List String) :
    rs.foldl
        (fun acc affr =>
          affr.Events.foldl
            (fun acc affre => if affre.Fixed = "" then acc else acc ++ [affre.Fixed]) acc)
        acc
      = acc ++ ((rs.flatMap (fun r => r.Events)).map (fun e => e.Fixed)).filter
          (fun x => x ≠ "") := by
  induction rs generalizing acc with
  | nil => simp
  | cons r rs ih =>
    rw [List.foldl_cons, ih, events_foldl]
    simp

theorem fixedVersions_eq (aff : Affected) : fixedVersions aff = presentFixed aff := by
  simp [fixedVersions, presentFixed, ranges_foldl]

theorem fixedList_foldl (affs : List Affected) (acc : List String) :
    affs.foldl (fun fixed aff => fixed ++ [stringsJoin (fixedVersions aff) ", "]) acc
      = acc ++ affs.map (fun aff => stringsJoin (presentFixed aff) ", ") := by
  induction affs generalizing acc with
  | nil => simp
  | cons a affs ih =>
    rw [List.foldl_cons, ih, fixedVersions_eq]
    simp

theorem fixedList_eq (vuln : Vulnerability) :
    fixedList vuln = vuln.Affected.map (fun aff => stringsJoin (presentFixed aff) ", ") := by
  simp [fixedList, fixedList_foldl]

theorem allFixed_eq (vuln : Vulnerability) :
    allFixed vuln = (vuln.Affected.map presentFixed).flatten := by
  unfold allFixed
  induction vuln.Affected with
  | nil => simp
  | cons a affs ih =>
    simp only [List.flatMap_cons, List.map_cons, List.flatten_cons, List.flatMap_append,
      List.map_append, List.filter_append, ih]
    rfl

theorem join_joins_eq_join_flatten (P : List (List String)) (sep : String)
    (h : ∀ p ∈ P, p ≠ []) :
    stringsJoin (P.map (fun p => stringsJoin p sep)) sep = stringsJoin P.flatten sep := by
  induction P with
  | nil => rfl
  | cons p rest ih =>
    cases rest with
    | nil => simp [stringsJoin_singleton]
    | cons q rest =>
      have hp : p ≠ [] := h p (by simp)
      have hq : q ≠ [] := h q (by simp)
      have ih2 := ih (fun x hx => h x (List.mem_cons_of_mem _ hx))
      simp only [List.map_cons] at ih2 ⊢
      rw [stringsJoin_cons_cons, ih2, List.flatten_cons (l := p),
        stringsJoin_append p _ sep hp (by simp [hq])]

theorem join_joins_length (P : List (List String)) (sep : String) :
    (stringsJoin (P.map (fun p => stringsJoin p sep)) sep).length
      = (P.map (fun p => (p.map String.length).sum)).sum
        + sep.length * ((P.map (fun p => p.length - 1)).sum + (P.length - 1)) := by
  rw [stringsJoin_length]
  simp only [List.map_map, List.length_map, Nat.mul_add]
  have : ∀ Q : List (List String),
      (Q.map (String.length ∘ fun p => stringsJoin p sep)).sum
        = (Q.map (fun p => (p.map String.length).sum)).sum
          + sep.length * (Q.map (fun p => p.length - 1)).sum := by
    intro Q
    induction Q with
    | nil => simp
    | cons q Q ih =>
      simp only [List.map_cons, List.sum_cons, Function.comp_apply, ih, stringsJoin_length,
        Nat.mul_add]
      omega
  rw [this, Nat.add_assoc]

theorem join_flatten_length (P : List (List String)) (sep : String) :
    (stringsJoin P.flatten sep).length
      = (P.map (fun p => (p.map String.length).sum)).sum
        + sep.length * ((P.map List.length).sum - 1) := by
  rw [stringsJoin_length]
  have h1 : (P.flatten.map String.length).sum
      = (P.map (fun p => (p.map String.length).sum)).sum := by
    induction P with
    | nil => simp
    | cons q Q ih => simp [ih, Function.comp_def]
  rw [h1, List.length_flatten]

theorem separators_count (P : List (List String)) :
    (P.map List.length).sum ≤ (P.map (fun p => p.length - 1)).sum + P.length
      ∧ ([] ∈ P → (P.map List.length).sum + 1 ≤ (P.map (fun p => p.length - 1)).sum + P.length)
    := by
  induction P with
  | nil => simp
  | cons q Q ih =>
    obtain ⟨h1, h2⟩ := ih
    refine ⟨by simp only [List.map_cons, List.sum_cons, List.length_cons]; omega, ?_⟩
    intro hm
    simp only [List.map_cons, List.sum_cons, List.length_cons]
    rcases List.mem_cons.1 hm with h | h
    · rw [← h]
      simp only [List.length_nil]
      omega
    · have := h2 h
      omega

theorem presentFixed_ne_nil_iff (aff : Affected) :
    presentFixed aff ≠ [] ↔ ∃ r ∈ aff.Ranges, ∃ e ∈ r.Events, e.Fixed ≠ "" := by
  unfold presentFixed
  rw [Ne, List.filter_eq_nil_iff]
  simp only [List.mem_map, List.mem_flatMap, decide_eq_true_eq, not_forall]
  constructor
  · rintro ⟨x, ⟨e, ⟨r, hr, he⟩, rfl⟩, hx⟩
    exact ⟨r, hr, e, he, by simpa using hx⟩
  · rintro ⟨r, hr, e, he, hx⟩
    exact ⟨e.Fixed, ⟨e, ⟨r, hr, he⟩, rfl⟩, by simpa using hx⟩

/-- C5, counterexample. On the vulnerability with one affected entry fixed in
`1.2.3` and a second one without fix, `show` prints `1.2.3, ` and not the join
`1.2.3` of the present `fixed` values. -/
theorem fixString_not_flat_join :
    fixString exampleVuln = "1.2.3, "
      ∧ stringsJoin (allFixed exampleVuln) ", " = "1.2.3"
      ∧ fixString exampleVuln ≠ stringsJoin (allFixed exampleVuln) ", " := by
  decide

/-- C5, amended. The fix-versions string is the `", "`-join, over the affected
entries in document order, of the `", "`-join of the present `fixed` values of
the entry (an entry without one contributes an empty item); it is the
`", "`-join of all present `fixed` values exactly when the vulnerability has
at most one affected entry or every affected entry has a present `fixed` value. -/
theorem fixString_join_of_joins (vuln : Vulnerability) :
    fixString vuln
        = stringsJoin (vuln.Affected.map (fun aff => stringsJoin (presentFixed aff) ", ")) ", "
      ∧ (fixString vuln = stringsJoin (allFixed vuln) ", "
          ↔ (vuln.Affected.length ≤ 1
              ∨ ∀ aff ∈ vuln.Affected, ∃ r ∈ aff.Ranges, ∃ e ∈ r.Events, e.Fixed ≠ "")) := by
  have h0 : fixString vuln
      = stringsJoin ((vuln.Affected.map presentFixed).map (fun p => stringsJoin p ", ")) ", " := by
    simp [fixString, fixedList_eq, Function.comp_def]
  refine ⟨by simp [fixString, fixedList_eq], ?_⟩
  rw [h0, allFixed_eq]
  constructor
  · intro heq
    by_contra hcon
    rw [not_or, not_forall] at hcon
    obtain ⟨hlen, aff, hex⟩ := hcon
    rw [Classical.not_imp] at hex
    obtain ⟨hmem, hnone⟩ := hex
    rw [← presentFixed_ne_nil_iff, Ne, not_not] at hnone
    have hnil : [] ∈ vuln.Affected.map presentFixed := by
      rw [← hnone]
      exact List.mem_map_of_mem _ hmem
    have hl := congrArg String.length heq
    rw [join_joins_length, join_flatten_length] at hl
    obtain ⟨-, h2⟩ := separators_count (vuln.Affected.map presentFixed)
    have h3 := h2 hnil
    have hk : (vuln.Affected.map presentFixed).length = vuln.Affected.length := by simp
    have hs : ", ".length = 2 := rfl
    rw [hs] at hl
    omega
  · rintro (hlen | hall)
    · rcases hv : vuln.Affected with _ | ⟨a, _ | ⟨b, rest⟩⟩
      · rfl
      · simp [stringsJoin_singleton]
      · rw [hv] at hlen
        simp at hlen
    · apply join_joins_eq_join_flatten
      intro p hp
      obtain ⟨aff, haff, rfl⟩ := List.mem_map.1 hp
      exact (presentFixed_ne_nil_iff aff).2 (hall aff haff)

theorem stringsJoin_replicate_empty (k : Nat) :
    (stringsJoin (List.replicate (k + 1) "") ", ").data
      = (List.replicate k [',', ' ']).flatten := by
  induction k with
  | zero => rfl
  | succ k ih =>
    rw [List.replicate_succ, List.replicate_succ, stringsJoin_cons_cons, ← List.replicate_succ,
      String.data_append, String.data_append, ih]
    rfl

theorem fixedList_of_no_fixed (vuln : Vulnerability)
    (h : ∀ aff ∈ vuln.Affected, ∀ r ∈ aff.Ranges, ∀ e ∈ r.Events, e.Fixed = "") :
    fixedList vuln = List.replicate vuln.Affected.length "" := by
  rw [fixedList_eq, List.eq_replicate_iff]
  refine ⟨by simp, ?_⟩
  intro x hx
  obtain ⟨aff, haff, rfl⟩ := List.mem_map.1 hx
  have : presentFixed aff = [] := by
    by_contra hne
    obtain ⟨r, hr, e, he, hfix⟩ := (presentFixed_ne_nil_iff aff).1 hne
    exact hfix (h aff haff r hr e he)
  rw [this]
  rfl

/-- C6, counterexample. A vulnerability with two affected entries and no
`fixed` value anywhere gets the fix-versions string `, `, which holds a comma
and so is not blank. -/
theorem fixString_unfixed_not_blank :
    fixString unfixedVuln = ", " ∧ isBlank (fixString unfixedVuln) = false := by
  decide

/-- C6, amended. For a vulnerability without any `fixed` value and with `k`
affected entries, the fix-versions string is `k - 1` copies of the separator
`", "`; it is blank (in fact empty) exactly when there is at most one affected entry. -/
theorem fixString_of_no_fixed (vuln : Vulnerability)
    (h : ∀ aff ∈ vuln.Affected, ∀ r ∈ aff.Ranges, ∀ e ∈ r.Events, e.Fixed = "") :
    fixString vuln = ⟨(List.replicate (vuln.Affected.length - 1) [',', ' ']).flatten⟩
      ∧ (isBlank (fixString vuln) = true ↔ vuln.Affected.length ≤ 1)
      ∧ (vuln.Affected.length ≤ 1 → fixString vuln = "") := by
  have hfix : fixString vuln
      = ⟨(List.replicate (vuln.Affected.length - 1) [',', ' ']).flatten⟩ := by
    unfold fixString
    rw [fixedList_of_no_fixed vuln h]
    cases hk : vuln.Affected.length with
    | zero => rfl
    | succ k =>
      apply String.ext
      rw [stringsJoin_replicate_empty]
      rfl
  refine ⟨hfix, ?_, ?_⟩
  · rw [hfix]
    cases hk : vuln.Affected.length - 1 with
    | zero =>
      have : vuln.Affected.length ≤ 1 := by omega
      simp [isBlank, this]
    | succ k =>
      have : ¬ vuln.Affected.length ≤ 1 := by omega
      have hc : Char.isWhitespace ',' = false := by decide
      simp [this, isBlank, List.replicate_succ, hc]
  · intro hle
    rw [hfix]
    have : vuln.Affected.length - 1 = 0 := by omega
    rw [this]
    rfl

/-- C6, witness: the amended statement at the vulnerability `unfixedVuln`. -/
theorem fixString_of_no_fixed_witness :
    (∀ aff ∈ unfixedVuln.Affected, ∀ r ∈ aff.Ranges, ∀ e ∈ r.Events, e.Fixed = "")
      ∧ fixString unfixedVuln = ", " :=
  ⟨by decide, (fixString_of_no_fixed unfixedVuln (by decide)).1⟩

/-! ## Theorems: the normalizer -/

theorem isBreakChar_iff (c : Char) : isBreakChar c = true ↔ c = '\r' ∨ c = '\n' := by
  simp [isBreakChar]

theorem brk_nil : brk [] = [] := rfl

theorem brk_lf (t : List Char) : brk ('\n' :: t) = [t] := by
  simp [brk, breakToken, Regex.run]

theorem brk_cr_lf (t : List Char) : brk ('\r' :: '\n' :: t) = [t, '\n' :: t] := by
  simp [brk, breakToken, Regex.run]

theorem brk_cr_nil : brk ['\r'] = [[]] := by
  simp [brk, breakToken, Regex.run]

theorem brk_cr_other (d : Char) (t : List Char) (h : d ≠ '\n') :
    brk ('\r' :: d :: t) = [d :: t] := by
  simp [brk, breakToken, Regex.run, h]

theorem brk_other (c : Char) (t : List Char) (h : isBreakChar c = false) :
    brk (c :: t) = [] := by
  simp only [isBreakChar, Bool.or_eq_false_iff, beq_eq_false_iff_ne, ne_eq] at h
  simp [brk, breakToken, Regex.run, h.1, h.2]

/-- A repetition that starts on a break character succeeds, and its preferred
remainder has the same text after the run of break characters. -/
theorem brk_of_break (c : Char) (t : List Char) (h : isBreakChar c = true) :
    ∃ r rest, brk (c :: t) = r :: rest
      ∧ r.dropWhile isBreakChar = t.dropWhile isBreakChar ∧ r.length ≤ t.length := by
  rcases (isBreakChar_iff c).1 h with rfl | rfl
  · cases t with
    | nil => exact ⟨[], [], brk_cr_nil, rfl, Nat.le_refl _⟩
    | cons d t =>
      by_cases hd : d = '\n'
      · subst hd
        refine ⟨t, ['\n' :: t], brk_cr_lf t, ?_, by simp⟩
        rw [List.dropWhile_cons]
        simp [isBreakChar]
      · exact ⟨d :: t, [], brk_cr_other d t hd, rfl, Nat.le_refl _⟩
  · exact ⟨t, [], brk_lf t, rfl, Nat.le_refl _⟩

theorem iterate_head (fuel : Nat) (s : List Char) (h : s.length ≤ fuel) :
    (iterate brk fuel s).head? = some (s.dropWhile isBreakChar) := by
  induction fuel generalizing s with
  | zero =>
    have : s = [] := List.length_eq_zero.1 (by omega)
    subst this
    rfl
  | succ fuel ih =>
    cases s with
    | nil => simp [iterate, brk_nil]
    | cons c t =>
      by_cases hb : isBreakChar c = true
      · obtain ⟨r, rest, hr, hdrop, hlen⟩ := brk_of_break c t hb
        have hl : r.length ≤ fuel := by simp at h; omega
        simp [iterate, hr, List.head?_append, ih r hl, hdrop, List.dropWhile_cons, hb]
      · simp only [Bool.not_eq_true] at hb
        simp [iterate, brk_other c t hb, List.dropWhile_cons, hb]

theorem isBreakChar_cr : isBreakChar '\r' = true := by decide

theorem isBreakChar_lf : isBreakChar '\n' = true := by decide

theorem dropWhile_of_startsWithBreak_false (t : List Char) (h : startsWithBreak t = false) :
    t.dropWhile isBreakChar = t := by
  cases t with
  | nil => rfl
  | cons d u =>
    simp only [startsWithBreak] at h
    simp [List.dropWhile_cons, h]

theorem second_head (fuel : Nat) (t : List Char) (h : t.length ≤ fuel) :
    ((brk t).flatMap (iterate brk fuel)).head?
      = if startsWithBreak t = true then some (t.dropWhile isBreakChar) else none := by
  cases t with
  | nil => simp [brk_nil, startsWithBreak]
  | cons d u =>
    by_cases hb : isBreakChar d = true
    · obtain ⟨r, rest, hr, hdrop, hlen⟩ := brk_of_break d u hb
      have hl : r.length ≤ fuel := by simp at h; omega
      simp [hr, List.head?_append, iterate_head fuel r hl, hdrop, hb, startsWithBreak,
        List.dropWhile_cons]
    · simp only [Bool.not_eq_true] at hb
      simp [brk_other d u hb, hb, startsWithBreak]

theorem rg_matchAt_nil : rg.matchAt [] = none := rfl

/-- The preferred match of the pattern at the start of a text: it exists exactly
when the text starts with two break characters, and then it is the whole run
of break characters. -/
theorem rg_matchAt_cons (c : Char) (t : List Char) :
    rg.matchAt (c :: t)
      = if isBreakChar c = true ∧ startsWithBreak t = true then some (t.dropWhile isBreakChar)
        else none := by
  have hrun : rg.matchAt (c :: t)
      = ((brk (c :: t)).flatMap
          (fun r => (brk r).flatMap (iterate brk (c :: t).length))).head? := rfl
  rw [hrun]
  by_cases hc : isBreakChar c = true
  · rcases (isBreakChar_iff c).1 hc with rfl | rfl
    · cases t with
      | nil => simp [brk_cr_nil, brk_nil, startsWithBreak]
      | cons d u =>
        by_cases hd : d = '\n'
        · subst hd
          have h1 := second_head ('\r' :: '\n' :: u).length u (by simp; omega)
          have h2 := iterate_head ('\r' :: '\n' :: u).length u (by simp; omega)
          simp only [brk_cr_lf, brk_lf, List.flatMap_cons, List.flatMap_nil, List.append_nil,
            List.head?_append, h1, h2, isBreakChar_cr, isBreakChar_lf, startsWithBreak,
            List.dropWhile_cons, and_self, if_true]
          by_cases hu : startsWithBreak u = true
          · simp [hu]
          · simp [hu]
        · have h1 := second_head ('\r' :: d :: u).length (d :: u) (by simp)
          simp only [brk_cr_other d u hd, List.flatMap_cons, List.flatMap_nil, List.append_nil,
            h1, isBreakChar_cr, true_and]
    · have h1 := second_head ('\n' :: t).length t (by simp)
      simp only [brk_lf, List.flatMap_cons, List.flatMap_nil, List.append_nil, h1,
        isBreakChar_lf, true_and]
  · simp only [Bool.not_eq_true] at hc
    simp [brk_other c t hc, hc]

theorem length_dropWhile_le (t : List Char) : (t.dropWhile isBreakChar).length ≤ t.length :=
  (List.dropWhile_sublist isBreakChar).length_le

theorem replaceAll_rg_nil (repl : List Char) (fuel : Nat) : replaceAll rg repl fuel [] = [] := by
  cases fuel <;> rfl

theorem replaceAll_rg_cons (repl : List Char) (fuel : Nat) (c : Char) (t : List Char) :
    replaceAll rg repl (fuel + 1) (c :: t)
      = if isBreakChar c = true ∧ startsWithBreak t = true then
          repl ++ replaceAll rg repl fuel (t.dropWhile isBreakChar)
        else c :: replaceAll rg repl fuel t := by
  have hlt : (t.dropWhile isBreakChar).length < (c :: t).length := by
    have := length_dropWhile_le t
    simp only [List.length_cons]
    omega
  by_cases h : isBreakChar c = true ∧ startsWithBreak t = true
  · simp only [replaceAll, rg_matchAt_cons, h, and_self, if_true, hlt]
  · simp only [replaceAll, rg_matchAt_cons, h, if_false]

/-- The fuel of `replaceAll` is immaterial once it covers the length of the text. -/
theorem replaceAll_rg_fuel (repl : List Char) (f1 f2 : Nat) (s : List Char)
    (h1 : s.length ≤ f1) (h2 : s.length ≤ f2) :
    replaceAll rg repl f1 s = replaceAll rg repl f2 s := by
  induction f1 generalizing f2 s with
  | zero =>
    have : s = [] := List.length_eq_zero.1 (by omega)
    subst this
    rw [replaceAll_rg_nil, replaceAll_rg_nil]
  | succ f1 ih =>
    cases s with
    | nil => rw [replaceAll_rg_nil, replaceAll_rg_nil]
    | cons c t =>
      cases f2 with
      | zero => simp at h2
      | succ f2 =>
        simp only [List.length_cons] at h1 h2
        have hd := length_dropWhile_le t
        rw [replaceAll_rg_cons, replaceAll_rg_cons,
          ih f2 t (by omega) (by omega),
          ih f2 (t.dropWhile isBreakChar) (by omega) (by omega)]

theorem normalizeChars_nil : normalizeChars [] = [] := rfl

/-- The normalizer, one step at a time: at two break characters in a row the
whole run of break characters becomes two line feeds; any other character is copied. -/
theorem normalizeChars_cons (c : Char) (t : List Char) :
    normalizeChars (c :: t)
      = if isBreakChar c = true ∧ startsWithBreak t = true then
          '\n' :: '\n' :: normalizeChars (t.dropWhile isBreakChar)
        else c :: normalizeChars t := by
  have hd := length_dropWhile_le t
  unfold normalizeChars
  rw [List.length_cons, replaceAll_rg_cons,
    replaceAll_rg_fuel _ t.length (t.dropWhile isBreakChar).length _ (by omega) (Nat.le_refl _)]
  rfl

theorem startsWithBreak_dropWhile (t : List Char) :
    startsWithBreak (t.dropWhile isBreakChar) = false := by
  induction t with
  | nil => rfl
  | cons d u ih =>
    by_cases hb : isBreakChar d = true
    · simp [List.dropWhile_cons, hb, ih]
    · simp only [Bool.not_eq_true] at hb
      simp [List.dropWhile_cons, hb, startsWithBreak]

theorem startsWithBreak_normalizeChars (s : List Char) :
    startsWithBreak (normalizeChars s) = startsWithBreak s := by
  cases s with
  | nil => rfl
  | cons c t =>
    rw [normalizeChars_cons]
    split
    · rename_i h
      simp [startsWithBreak, h.1, isBreakChar_lf]
    · rfl

theorem normalizeChars_length_le (s : List Char) : (normalizeChars s).length ≤ s.length := by
  obtain ⟨n, hn⟩ : ∃ n, s.length = n := ⟨_, rfl⟩
  induction n using Nat.strong_induction_on generalizing s with
  | _ n ih =>
    cases s with
    | nil => simp [normalizeChars_nil]
    | cons c t =>
      rw [normalizeChars_cons]
      simp only [List.length_cons] at hn
      split
      · rename_i h
        cases t with
        | nil => simp [startsWithBreak] at h
        | cons d u =>
          have hd : isBreakChar d = true := h.2
          rw [List.dropWhile_cons, if_pos hd]
          have hl := length_dropWhile_le u
          have := ih (u.dropWhile isBreakChar).length (by simp at hn; omega) _ rfl
          simp only [List.length_cons]
          omega
      · have := ih t.length (by omega) t rfl
        simp only [List.length_cons]
        omega

/-- Idempotence on characters. -/
theorem normalizeChars_idem (s : List Char) :
    normalizeChars (normalizeChars s) = normalizeChars s := by
  obtain ⟨n, hn⟩ : ∃ n, s.length = n := ⟨_, rfl⟩
  induction n using Nat.strong_induction_on generalizing s with
  | _ n ih =>
    cases s with
    | nil => rfl
    | cons c t =>
      simp only [List.length_cons] at hn
      rw [normalizeChars_cons]
      split
      · rename_i h
        have hl := length_dropWhile_le t
        have ih1 := ih (t.dropWhile isBreakChar).length (by omega) _ rfl
        have hs : startsWithBreak (normalizeChars (t.dropWhile isBreakChar)) = false := by
          rw [startsWithBreak_normalizeChars, startsWithBreak_dropWhile]
        rw [normalizeChars_cons]
        simp only [isBreakChar_lf, startsWithBreak, and_self, if_true, List.dropWhile_cons]
        rw [dropWhile_of_startsWithBreak_false _ hs, ih1]
      · rename_i h
        have ih1 := ih t.length (by omega) t rfl
        rw [normalizeChars_cons, startsWithBreak_normalizeChars, if_neg h, ih1]

theorem startsWithBreak_append_cons (p : List Char) (c : Char) (q : List Char)
    (hc : isBreakChar c = false) : startsWithBreak (p ++ c :: q) = startsWithBreak p := by
  cases p with
  | nil => simp [startsWithBreak, hc]
  | cons x p => rfl

theorem dropWhile_append_cons (p : List Char) (c : Char) (q : List Char)
    (hc : isBreakChar c = false) :
    (p ++ c :: q).dropWhile isBreakChar = p.dropWhile isBreakChar ++ c :: q := by
  induction p with
  | nil => simp [List.dropWhile_cons, hc]
  | cons x p ih =>
    by_cases hx : isBreakChar x = true
    · simp [List.dropWhile_cons, hx, ih]
    · simp [List.dropWhile_cons, hx]

/-- A character that is no break character cuts the text: both sides are
normalized independently. -/
theorem normalizeChars_append_cons (p : List Char) (c : Char) (q : List Char)
    (hc : isBreakChar c = false) :
    normalizeChars (p ++ c :: q) = normalizeChars p ++ c :: normalizeChars q := by
  obtain ⟨n, hn⟩ : ∃ n, p.length = n := ⟨_, rfl⟩
  induction n using Nat.strong_induction_on generalizing p with
  | _ n ih =>
    cases p with
    | nil => simp [normalizeChars_cons, normalizeChars_nil, hc]
    | cons x p =>
      simp only [List.length_cons] at hn
      rw [List.cons_append, normalizeChars_cons, normalizeChars_cons,
        startsWithBreak_append_cons p c q hc, dropWhile_append_cons p c q hc]
      have hl := length_dropWhile_le p
      by_cases h : isBreakChar x = true ∧ startsWithBreak p = true
      · rw [if_pos h, if_pos h, ih (p.dropWhile isBreakChar).length (by omega) _ rfl]
        rfl
      · rw [if_neg h, if_neg h, ih p.length (by omega) p rfl]
        rfl

/-- A run of two or more break characters followed by none becomes two line feeds. -/
theorem normalizeChars_run (m post : List Char) (hm : ∀ c ∈ m, isBreakChar c = true)
    (hlen : 2 ≤ m.length) (hpost : startsWithBreak post = false) :
    normalizeChars (m ++ post) = '\n' :: '\n' :: normalizeChars post := by
  match m, hm, hlen with
  | c :: d :: m2, hm, _ =>
    have hc : isBreakChar c = true := hm c (by simp)
    have hd : isBreakChar d = true := hm d (by simp)
    have hm2 : ∀ x ∈ m2, isBreakChar x = true := fun x hx => hm x (by simp [hx])
    rw [List.cons_append, normalizeChars_cons]
    simp only [List.cons_append, startsWithBreak, hc, hd, and_self, if_true,
      List.dropWhile_cons]
    rw [List.dropWhile_append_of_pos hm2, dropWhile_of_startsWithBreak_false post hpost]

theorem lineBreakCount_breaks (run : List Char) (k : Nat) (h : lineBreakCount run = some k) :
    (∀ c ∈ run, isBreakChar c = true) ∧ k ≤ run.length := by
  obtain ⟨n, hn⟩ : ∃ n, run.length = n := ⟨_, rfl⟩
  induction n using Nat.strong_induction_on generalizing run k with
  | _ n ih =>
    cases run with
    | nil =>
      simp only [lineBreakCount, Option.some.injEq] at h
      simp [← h]
    | cons c t =>
      simp only [List.length_cons] at hn
      unfold lineBreakCount at h
      by_cases hc : c = '\n'
      · simp only [hc, if_true, Option.map_eq_some'] at h
        obtain ⟨j, hj, rfl⟩ := h
        obtain ⟨h1, h2⟩ := ih t.length (by omega) t j hj rfl
        refine ⟨?_, by simp only [List.length_cons]; omega⟩
        intro x hx
        rcases List.mem_cons.1 hx with rfl | hx
        · rw [hc]; exact isBreakChar_lf
        · exact h1 x hx
      · simp only [hc, if_false] at h
        cases t with
        | nil => simp at h
        | cons d u =>
          simp only at h
          by_cases hcd : c = '\r' ∧ d = '\n'
          · simp only [hcd, and_self, if_true, Option.map_eq_some'] at h
            obtain ⟨j, hj, rfl⟩ := h
            obtain ⟨h1, h2⟩ := ih u.length (by simp at hn; omega) u j hj rfl
            refine ⟨?_, by simp only [List.length_cons]; omega⟩
            intro x hx
            rcases List.mem_cons.1 hx with rfl | hx
            · rw [hcd.1]; exact isBreakChar_cr
            · rcases List.mem_cons.1 hx with rfl | hx
              · rw [hcd.2]; exact isBreakChar_lf
              · exact h1 x hx
          · simp [hcd] at h

theorem rdropWhile_append_rtakeWhile (l : List Char) :
    l.rdropWhile isBreakChar ++ l.rtakeWhile isBreakChar = l := by
  simp [List.rdropWhile, List.rtakeWhile, ← List.reverse_append]

theorem mem_rtakeWhile (l : List Char) (c : Char) (h : c ∈ l.rtakeWhile isBreakChar) :
    isBreakChar c = true := by
  simp only [List.rtakeWhile, List.mem_reverse] at h
  exact List.mem_takeWhile_imp h

theorem rdropWhile_cases (pre : List Char) :
    pre.rdropWhile isBreakChar = []
      ∨ ∃ p c0, pre.rdropWhile isBreakChar = p ++ [c0] ∧ isBreakChar c0 = false := by
  rcases List.eq_nil_or_concat (pre.rdropWhile isBreakChar) with h0 | ⟨p, c0, h0⟩
  · exact Or.inl h0
  · rw [List.concat_eq_append] at h0
    refine Or.inr ⟨p, c0, h0, ?_⟩
    have hne : pre.rdropWhile isBreakChar ≠ [] := by rw [h0]; simp
    have hlast := List.rdropWhile_last_not isBreakChar pre hne
    have hg : (pre.rdropWhile isBreakChar).getLast hne = c0 := by
      simp only [h0, List.getLast_append_singleton]
    rw [hg] at hlast
    simpa using hlast

theorem normalizeChars_rdropWhile_last (pre : List Char) (c : Char)
    (h : (normalizeChars (pre.rdropWhile isBreakChar)).getLast? = some c) :
    isBreakChar c = false := by
  rcases rdropWhile_cases pre with h0 | ⟨p, c0, h0, hc0⟩
  · rw [h0, normalizeChars_nil] at h
    simp at h
  · rw [h0, normalizeChars_append_cons p c0 [] hc0, normalizeChars_nil] at h
    simp only [List.getLast?_append, List.getLast?_singleton, Option.or_some,
      Option.some.injEq] at h
    rw [← h]
    exact hc0

/-- The place of a run of two or more line breaks in the output. -/
theorem normalizeChars_around_run (pre run post : List Char) (k : Nat)
    (hrun : lineBreakCount run = some k) (hk : 2 ≤ k) :
    normalizeChars (pre ++ run ++ post)
      = normalizeChars (pre.rdropWhile isBreakChar)
        ++ '\n' :: '\n' :: normalizeChars (post.dropWhile isBreakChar) := by
  obtain ⟨hbreaks, hlen⟩ := lineBreakCount_breaks run k hrun
  have hm : ∀ c ∈ pre.rtakeWhile isBreakChar ++ run ++ post.takeWhile isBreakChar,
      isBreakChar c = true := by
    intro c hc
    simp only [List.mem_append] at hc
    rcases hc with (hc | hc) | hc
    · exact mem_rtakeWhile pre c hc
    · exact hbreaks c hc
    · exact List.mem_takeWhile_imp hc
  have hmlen : 2 ≤ (pre.rtakeWhile isBreakChar ++ run ++ post.takeWhile isBreakChar).length := by
    simp only [List.length_append]
    omega
  have hsplit : pre ++ run ++ post
      = pre.rdropWhile isBreakChar
        ++ ((pre.rtakeWhile isBreakChar ++ run ++ post.takeWhile isBreakChar)
          ++ post.dropWhile isBreakChar) := by
    conv_lhs => rw [← rdropWhile_append_rtakeWhile pre,
      ← List.takeWhile_append_dropWhile isBreakChar post]
    simp only [List.append_assoc]
  have hmid := normalizeChars_run _ (post.dropWhile isBreakChar) hm hmlen
    (startsWithBreak_dropWhile post)
  rcases rdropWhile_cases pre with h0 | ⟨p, c0, h0, hc0⟩
  · rw [hsplit, h0, List.nil_append, hmid, normalizeChars_nil, List.nil_append]
  · rw [hsplit, h0, List.append_assoc, List.singleton_append,
      normalizeChars_append_cons p c0 _ hc0, hmid,
      normalizeChars_append_cons p c0 [] hc0, normalizeChars_nil]
    simp

theorem normalizeChars_of_no_pair (l : List Char) (h : hasBreakPair l = false) :
    normalizeChars l = l := by
  induction l with
  | nil => rfl
  | cons c t ih =>
    simp only [hasBreakPair, Bool.or_eq_false_iff, Bool.and_eq_false_iff] at h
    have hcond : ¬ (isBreakChar c = true ∧ startsWithBreak t = true) := by
      rintro ⟨h1, h2⟩
      rcases h.1 with h3 | h3
      · rw [h1] at h3; exact Bool.noConfusion h3
      · rw [h2] at h3; exact Bool.noConfusion h3
    rw [normalizeChars_cons, if_neg hcond, ih h.2]

/-- C7. With a line break read as a line feed or a carriage return followed by
a line feed: wherever the text holds a run of two or more consecutive line
breaks, the output holds exactly two line feeds in its place (the break
characters touching the run go with it, and the two line feeds stand between
texts that neither end nor start with a break character), and the output
never holds three or more consecutive line breaks. -/
theorem normalize_collapses_runs (s : String) :
    (∀ (pre run post : List Char) (k : Nat),
        s.data = pre ++ run ++ post → lineBreakCount run = some k → 2 ≤ k →
          (normalize s).data
              = normalizeChars (pre.rdropWhile isBreakChar)
                ++ '\n' :: '\n' :: normalizeChars (post.dropWhile isBreakChar)
            ∧ (∀ c, (normalizeChars (pre.rdropWhile isBreakChar)).getLast? = some c →
                isBreakChar c = false)
            ∧ startsWithBreak (normalizeChars (post.dropWhile isBreakChar)) = false)
      ∧ ∀ (run : List Char) (k : Nat),
          lineBreakCount run = some k → 3 ≤ k → ¬ run <:+: (normalize s).data := by
  constructor
  · intro pre run post k hs hrun hk
    refine ⟨?_, normalizeChars_rdropWhile_last pre, ?_⟩
    · show normalizeChars s.data = _
      rw [hs]
      exact normalizeChars_around_run pre run post k hrun hk
    · rw [startsWithBreak_normalizeChars, startsWithBreak_dropWhile]
  · rintro run k hrun hk ⟨a, b, hab⟩
    have hab2 : normalizeChars s.data = a ++ run ++ b := hab.symm
    have h1 := normalizeChars_around_run a run b k hrun (by omega)
    rw [← hab2, normalizeChars_idem] at h1
    have hlen := congrArg List.length h1
    rw [hab2] at hlen
    simp only [List.length_append, List.length_cons] at hlen
    have h2 := normalizeChars_length_le (a.rdropWhile isBreakChar)
    have h3 := normalizeChars_length_le (b.dropWhile isBreakChar)
    have h4 := (List.rdropWhile_prefix isBreakChar (l := a)).length_le
    have h5 := length_dropWhile_le b
    have h6 := (lineBreakCount_breaks run k hrun).2
    omega

/-- C7, witness: the text `a`, line feed, carriage return and line feed, line
feed, `b` holds a run of three line breaks, which becomes two line feeds. -/
theorem normalize_collapses_runs_witness :
    lineBreakCount ['\n', '\r', '\n', '\n'] = some 3
      ∧ (normalize "a\n\r\n\nb").data
          = normalizeChars ['a'] ++ '\n' :: '\n' :: normalizeChars ['b'] :=
  ⟨by decide,
   ((normalize_collapses_runs "a\n\r\n\nb").1 ['a'] ['\n', '\r', '\n', '\n'] ['b'] 3
      (by decide) (by decide) (by decide)).1⟩

/-- C8. The code at the failing input: the text `a`, carriage return, line
feed, `b` holds a single line break and no run of two, yet the normalizer
rewrites it to `a`, line feed, line feed, `b`. The alternative `\r\n?` of the
pattern reads a carriage return with its line feed as one break, but the
repetition may also take the carriage return and the line feed as two breaks. -/
theorem normalize_changes_single_crlf :
    hasLineBreakRun "a\r\nb".data = false
      ∧ normalize "a\r\nb" = "a\n\nb"
      ∧ normalize "a\r\nb" ≠ "a\r\nb" := by
  decide

/-- Where the normalizer does leave a text alone: a text in which no two
characters among carriage return and line feed are adjacent is returned
unchanged; the empty text gives the empty text. -/
theorem normalize_unchanged_without_pair (s : String) (h : hasBreakPair s.data = false) :
    normalize s = s ∧ normalize "" = "" := by
  refine ⟨?_, rfl⟩
  apply String.ext
  exact normalizeChars_of_no_pair s.data h

/-- An instance with an isolated line feed and an isolated carriage return,
and the empty text. -/
theorem normalize_unchanged_without_pair_witness :
    (hasBreakPair "a\nb\rc".data = false ∧ normalize "a\nb\rc" = "a\nb\rc")
      ∧ normalize "" = "" :=
  ⟨⟨by decide, (normalize_unchanged_without_pair "a\nb\rc" (by decide)).1⟩,
   (normalize_unchanged_without_pair "a\nb\rc" (by decide)).2⟩

/-- C9. The normalizer is idempotent. -/
theorem normalize_idempotent (s : String) : normalize (normalize s) = normalize s := by
  apply String.ext
  exact normalizeChars_idem s.data

/-! ## Theorems: the source identifier -/

set_option maxRecDepth 1000000

/-- Test vector of FIPS 180-4: the digest of `abc`. -/
theorem sha256_abc :
    hexEncode (sha256 (utf8 "abc"))
      = "ba7816bf8f01cfea414140de5dae2223b00361a396177a9cb410ff61f20015ad" := by
  decide

/-- Test vector: the digest of the empty message. -/
theorem sha256_empty :
    hexEncode (sha256 (utf8 ""))
      = "e3b0c44298fc1c149afbf4c8996fb92427ae41e4649b934ca495991b7852b855" := by
  decide

/-- Test vector of FIPS 180-4 with two blocks. -/
theorem sha256_two_blocks :
    hexEncode (sha256 (utf8 "abcdbcdecdefdefgefghfghighijhijkijkljklmklmnlmnomnopnopq"))
      = "248d6a61d20638b8e5c026930c3e6039a33ce45964ff2167f6ecedd419db06c1" := by
  decide

theorem beBytes_length (width x : Nat) : (beBytes width x).length = width := by
  simp [beBytes]

theorem beBytes_lt (width x b : Nat) (h : b ∈ beBytes width x) : b < 256 := by
  simp only [beBytes, List.mem_map] at h
  obtain ⟨i, -, rfl⟩ := h
  exact Nat.mod_lt _ (by decide)

theorem sha256_length (msg : List Nat) : (sha256 msg).length = 32 := by
  simp [sha256, beBytes_length]

theorem hexEncode_length (bytes : List Nat) : (hexEncode bytes).data.length = 2 * bytes.length := by
  unfold hexEncode
  induction bytes with
  | nil => rfl
  | cons b bs ih =>
    simp only [List.flatMap_cons, List.length_append, ih, hexByte, List.length_cons,
      List.length_nil]
    omega

theorem hexEncode_sha256_length (msg : List Nat) : (hexEncode (sha256 msg)).data.length = 64 := by
  rw [hexEncode_length, sha256_length]

theorem digitChar_hex (n : Nat) (h : n < 16) : Nat.digitChar n ∈ "0123456789abcdef".data := by
  interval_cases n <;> decide

theorem hexEncode_chars (bytes : List Nat) (c : Char) (h : c ∈ (hexEncode bytes).data) :
    c ∈ "0123456789abcdef".data := by
  simp only [hexEncode, List.mem_flatMap, hexByte, List.mem_cons, List.mem_singleton,
    List.not_mem_nil, or_false] at h
  obtain ⟨b, -, rfl | rfl⟩ := h
  · exact digitChar_hex _ (Nat.mod_lt _ (by decide))
  · exact digitChar_hex _ (Nat.mod_lt _ (by decide))

/-! ## Theorems: the model of SHA-256 against FIPS 180-4 -/

theorem fipsZeroBytes_mod (len : Nat) : fipsZeroBytes len = fipsZeroBytes (len % 64) := by
  unfold fipsZeroBytes
  have h : (fun z => decide ((len + 1 + z) % 64 = 56))
      = fun z => decide ((len % 64 + 1 + z) % 64 = 56) := by
    funext z
    congr 1
    apply propext
    constructor <;> intro h <;> omega
  rw [h]

theorem fipsZeroBytes_small (r : Nat) (h : r < 64) : fipsZeroBytes r = (55 + 64 - r) % 64 := by
  interval_cases r <;> rfl

theorem fipsZeroBytes_eq (len : Nat) : fipsZeroBytes len = (55 + 64 - len % 64) % 64 := by
  rw [fipsZeroBytes_mod, fipsZeroBytes_small _ (Nat.mod_lt _ (by decide))]

theorem pad_eq_fipsPadded (msg : List Nat) : pad msg = fipsPadded msg := by
  unfold pad fipsPadded beBytes
  rw [fipsZeroBytes_eq]
  have hr : List.range 8 = [0, 1, 2, 3, 4, 5, 6, 7] := by decide
  rw [hr]
  simp only [List.reverse_cons, List.reverse_nil, List.nil_append, List.cons_append,
    List.map_cons, List.map_nil, Nat.shiftRight_eq_div_pow, List.append_assoc,
    List.singleton_append]
  congr 3
  norm_num
  refine ⟨?_, ?_, ?_, ?_, ?_, ?_, ?_⟩ <;> omega

theorem beWords_eq (n : Nat) (block : List Nat) (h : block.length = 4 * n) :
    beWords block
      = (List.range n).map
          (fun t => block.getD (4 * t) 0 * 2 ^ 24 + block.getD (4 * t + 1) 0 * 2 ^ 16
            + block.getD (4 * t + 2) 0 * 2 ^ 8 + block.getD (4 * t + 3) 0) := by
  induction n generalizing block with
  | zero =>
    have : block = [] := List.length_eq_zero.1 (by omega)
    subst this
    rfl
  | succ n ih =>
    match block, h with
    | a :: b :: c :: d :: rest, h =>
      have hrest : rest.length = 4 * n := by simp only [List.length_cons] at h; omega
      rw [beWords, ih rest hrest, List.range_succ_eq_map, List.map_cons, List.map_map]
      have h0 : ((a * 256 + b) * 256 + c) * 256 + d
          = (a :: b :: c :: d :: rest).getD (4 * 0) 0 * 2 ^ 24
            + (a :: b :: c :: d :: rest).getD (4 * 0 + 1) 0 * 2 ^ 16
            + (a :: b :: c :: d :: rest).getD (4 * 0 + 2) 0 * 2 ^ 8
            + (a :: b :: c :: d :: rest).getD (4 * 0 + 3) 0 := by
        simp only [Nat.mul_zero, List.getD_cons_zero, Nat.zero_add, List.getD_cons_succ]
        omega
      have hm : (List.range n).map
            (fun t => rest.getD (4 * t) 0 * 2 ^ 24 + rest.getD (4 * t + 1) 0 * 2 ^ 16
              + rest.getD (4 * t + 2) 0 * 2 ^ 8 + rest.getD (4 * t + 3) 0)
          = (List.range n).map
            ((fun t => (a :: b :: c :: d :: rest).getD (4 * t) 0 * 2 ^ 24
              + (a :: b :: c :: d :: rest).getD (4 * t + 1) 0 * 2 ^ 16
              + (a :: b :: c :: d :: rest).getD (4 * t + 2) 0 * 2 ^ 8
              + (a :: b :: c :: d :: rest).getD (4 * t + 3) 0) ∘ Nat.succ) := by
        apply List.map_congr_left
        intro t _
        have e0 : 4 * (t + 1) = 4 * t + 3 + 1 := by omega
        have e1 : 4 * (t + 1) + 1 = 4 * t + 1 + 3 + 1 := by omega
        have e2 : 4 * (t + 1) + 2 = 4 * t + 2 + 3 + 1 := by omega
        have e3 : 4 * (t + 1) + 3 = 4 * t + 3 + 3 + 1 := by omega
        simp only [Function.comp_apply, Nat.succ_eq_add_one]
        rw [e3, e2, e1, e0]
        simp only [List.getD_cons_succ]
      rw [h0, hm]

theorem getD_reverse_map_range (w : Nat → Nat) (n j : Nat) (h : j < n) :
    (((List.range n).map w).reverse).getD j 0 = w (n - 1 - j) := by
  have hlen : j < ((List.range n).map w).length := by simpa using h
  rw [List.getD_eq_getElem?_getD, List.getElem?_reverse hlen]
  simp only [List.length_map, List.length_range, List.getElem?_map]
  rw [List.getElem?_range (by omega)]
  rfl

theorem fipsW_lt (m : Nat → Nat) (t : Nat) (h : t < 16) : fipsW m t = m t := by
  rw [fipsW, if_pos h]

theorem fipsW_ge (m : Nat → Nat) (t : Nat) (h : 16 ≤ t) :
    fipsW m t
      = (smallSigma1 (fipsW m (t - 2)) + fipsW m (t - 7) + smallSigma0 (fipsW m (t - 15))
          + fipsW m (t - 16)) % 2 ^ 32 := by
  rw [fipsW, if_neg (by omega)]

theorem extendSchedule_eq (m : Nat → Nat) (k n : Nat) (hn : 16 ≤ n) :
    extendSchedule k (((List.range n).map (fipsW m)).reverse)
      = ((List.range (n + k)).map (fipsW m)).reverse := by
  induction k generalizing n with
  | zero => rfl
  | succ k ih =>
    have hstep : add32 (add32 (add32
          (smallSigma1 ((((List.range n).map (fipsW m)).reverse).getD 1 0))
          ((((List.range n).map (fipsW m)).reverse).getD 6 0))
          (smallSigma0 ((((List.range n).map (fipsW m)).reverse).getD 14 0)))
          ((((List.range n).map (fipsW m)).reverse).getD 15 0)
        :: ((List.range n).map (fipsW m)).reverse
        = ((List.range (n + 1)).map (fipsW m)).reverse := by
      rw [getD_reverse_map_range _ _ _ (by omega), getD_reverse_map_range _ _ _ (by omega),
        getD_reverse_map_range _ _ _ (by omega), getD_reverse_map_range _ _ _ (by omega),
        List.range_succ, List.map_append, List.reverse_append]
      have e1 : n - 1 - 1 = n - 2 := by omega
      have e2 : n - 1 - 6 = n - 7 := by omega
      have e3 : n - 1 - 14 = n - 15 := by omega
      have e4 : n - 1 - 15 = n - 16 := by omega
      rw [e1, e2, e3, e4]
      simp only [List.map_cons, List.map_nil, List.reverse_cons, List.reverse_nil,
        List.nil_append, List.singleton_append]
      rw [fipsW_ge m n hn]
      have hw : add32 (add32 (add32 (smallSigma1 (fipsW m (n - 2))) (fipsW m (n - 7)))
            (smallSigma0 (fipsW m (n - 15)))) (fipsW m (n - 16))
          = (smallSigma1 (fipsW m (n - 2)) + fipsW m (n - 7) + smallSigma0 (fipsW m (n - 15))
              + fipsW m (n - 16)) % 2 ^ 32 := by
        simp only [add32]
        omega
      rw [hw]
    rw [extendSchedule, hstep, ih (n + 1) (by omega)]
    have e : n + 1 + k = n + (k + 1) := by omega
    rw [e]

theorem schedule_eq (block : List Nat) (h : block.length = 64) :
    schedule block
      = (List.range 64).map
          (fipsW (fun t => block.getD (4 * t) 0 * 2 ^ 24 + block.getD (4 * t + 1) 0 * 2 ^ 16
            + block.getD (4 * t + 2) 0 * 2 ^ 8 + block.getD (4 * t + 3) 0)) := by
  unfold schedule
  rw [beWords_eq 16 block (by omega)]
  have h16 : (List.range 16).map
        (fun t => block.getD (4 * t) 0 * 2 ^ 24 + block.getD (4 * t + 1) 0 * 2 ^ 16
          + block.getD (4 * t + 2) 0 * 2 ^ 8 + block.getD (4 * t + 3) 0)
      = (List.range 16).map
        (fipsW (fun t => block.getD (4 * t) 0 * 2 ^ 24 + block.getD (4 * t + 1) 0 * 2 ^ 16
          + block.getD (4 * t + 2) 0 * 2 ^ 8 + block.getD (4 * t + 3) 0)) := by
    apply List.map_congr_left
    intro t ht
    rw [fipsW_lt _ t (List.mem_range.1 ht)]
  rw [h16, extendSchedule_eq _ 48 16 (Nat.le_refl _), List.reverse_reverse]

theorem round_eq_fipsStep (s : Digest) (k w : Nat) : round s (k, w) = fipsStep s k w := by
  simp only [round, fipsStep, add32, Digest.mk.injEq, and_true, true_and]
  constructor <;> omega

theorem rounds_eq_fipsWorking (w : Nat → Nat) (h : Digest) (n : Nat) :
    ((List.range n).map (fun t => (sha256K.getD t 0, w t))).foldl round h
      = fipsWorking w h n := by
  induction n with
  | zero => rfl
  | succ n ih =>
    rw [List.range_succ, List.map_append, List.foldl_append, ih]
    simp only [List.map_cons, List.map_nil, List.foldl_cons, List.foldl_nil, fipsWorking]
    exact round_eq_fipsStep _ _ _

theorem sha256K_eq : sha256K = (List.range 64).map (fun t => sha256K.getD t 0) := by
  decide

theorem zip_sha256K (w : Nat → Nat) :
    sha256K.zip ((List.range 64).map w)
      = (List.range 64).map (fun t => (sha256K.getD t 0, w t)) := by
  conv_lhs => rw [sha256K_eq]
  rw [List.zip_map']

theorem compress_eq (h : Digest) (block : List Nat) (hlen : block.length = 64) :
    compress h block
      = ⟨((fipsWorking (fipsW (fun t => block.getD (4 * t) 0 * 2 ^ 24
              + block.getD (4 * t + 1) 0 * 2 ^ 16 + block.getD (4 * t + 2) 0 * 2 ^ 8
              + block.getD (4 * t + 3) 0)) h 64).h0 + h.h0) % 2 ^ 32,
         ((fipsWorking (fipsW (fun t => block.getD (4 * t) 0 * 2 ^ 24
              + block.getD (4 * t + 1) 0 * 2 ^ 16 + block.getD (4 * t + 2) 0 * 2 ^ 8
              + block.getD (4 * t + 3) 0)) h 64).h1 + h.h1) % 2 ^ 32,
         ((fipsWorking (fipsW (fun t => block.getD (4 * t) 0 * 2 ^ 24
              + block.getD (4 * t + 1) 0 * 2 ^ 16 + block.getD (4 * t + 2) 0 * 2 ^ 8
              + block.getD (4 * t + 3) 0)) h 64).h2 + h.h2) % 2 ^ 32,
         ((fipsWorking (fipsW (fun t => block.getD (4 * t) 0 * 2 ^ 24
              + block.getD (4 * t + 1) 0 * 2 ^ 16 + block.getD (4 * t + 2) 0 * 2 ^ 8
              + block.getD (4 * t + 3) 0)) h 64).h3 + h.h3) % 2 ^ 32,
         ((fipsWorking (fipsW (fun t => block.getD (4 * t) 0 * 2 ^ 24
              + block.getD (4 * t + 1) 0 * 2 ^ 16 + block.getD (4 * t + 2) 0 * 2 ^ 8
              + block.getD (4 * t + 3) 0)) h 64).h4 + h.h4) % 2 ^ 32,
         ((fipsWorking (fipsW (fun t => block.getD (4 * t) 0 * 2 ^ 24
              + block.getD (4 * t + 1) 0 * 2 ^ 16 + block.getD (4 * t + 2) 0 * 2 ^ 8
              + block.getD (4 * t + 3) 0)) h 64).h5 + h.h5) % 2 ^ 32,
         ((fipsWorking (fipsW (fun t => block.getD (4 * t) 0 * 2 ^ 24
              + block.getD (4 * t + 1) 0 * 2 ^ 16 + block.getD (4 * t + 2) 0 * 2 ^ 8
              + block.getD (4 * t + 3) 0)) h 64).h6 + h.h6) % 2 ^ 32,
         ((fipsWorking (fipsW (fun t => block.getD (4 * t) 0 * 2 ^ 24
              + block.getD (4 * t + 1) 0 * 2 ^ 16 + block.getD (4 * t + 2) 0 * 2 ^ 8
              + block.getD (4 * t + 3) 0)) h 64).h7 + h.h7) % 2 ^ 32⟩ := by
  unfold compress
  rw [schedule_eq block hlen, zip_sha256K, rounds_eq_fipsWorking]
  simp only [add32, Digest.mk.injEq]
  refine ⟨?_, ?_, ?_, ?_, ?_, ?_, ?_, ?_⟩ <;> rw [Nat.add_comm]

theorem fipsW_congr (m1 m2 : Nat → Nat) (h : ∀ t, t < 16 → m1 t = m2 t) (t : Nat) :
    fipsW m1 t = fipsW m2 t := by
  induction t using Nat.strong_induction_on with
  | _ t ih =>
    by_cases ht : t < 16
    · rw [fipsW_lt m1 t ht, fipsW_lt m2 t ht, h t ht]
    · rw [fipsW_ge m1 t (by omega), fipsW_ge m2 t (by omega), ih (t - 2) (by omega),
        ih (t - 7) (by omega), ih (t - 15) (by omega), ih (t - 16) (by omega)]

theorem getD_take_drop (padded : List Nat) (i j : Nat) (hj : j < 64) :
    ((padded.drop (64 * i)).take 64).getD j 0 = padded.getD (64 * i + j) 0 := by
  rw [List.getD_eq_getElem?_getD, List.getD_eq_getElem?_getD, List.getElem?_take_of_lt hj,
    List.getElem?_drop]

theorem fipsW_block (padded : List Nat) (i : Nat) :
    fipsW (fun t => ((padded.drop (64 * i)).take 64).getD (4 * t) 0 * 2 ^ 24
        + ((padded.drop (64 * i)).take 64).getD (4 * t + 1) 0 * 2 ^ 16
        + ((padded.drop (64 * i)).take 64).getD (4 * t + 2) 0 * 2 ^ 8
        + ((padded.drop (64 * i)).take 64).getD (4 * t + 3) 0)
      = fipsW (fipsWord padded i) := by
  funext t
  apply fipsW_congr
  intro u hu
  simp only [fipsWord]
  rw [getD_take_drop padded i (4 * u) (by omega), getD_take_drop padded i (4 * u + 1) (by omega),
    getD_take_drop padded i (4 * u + 2) (by omega), getD_take_drop padded i (4 * u + 3) (by omega)]
  simp only [Nat.add_assoc]

theorem blocks_eq_fipsH (padded : List Nat) (n i : Nat) (h : 64 * (i + n) ≤ padded.length) :
    blocks n (padded.drop (64 * i)) (fipsH padded i) = fipsH padded (i + n) := by
  induction n generalizing i with
  | zero => rfl
  | succ n ih =>
    have hlen : ((padded.drop (64 * i)).take 64).length = 64 := by
      rw [List.length_take, List.length_drop]
      omega
    have hdrop : (padded.drop (64 * i)).drop 64 = padded.drop (64 * (i + 1)) := by
      rw [List.drop_drop, Nat.mul_add, Nat.mul_one]
    have hc : compress (fipsH padded i) ((padded.drop (64 * i)).take 64)
        = fipsH padded (i + 1) := by
      rw [compress_eq _ _ hlen, fipsW_block]
      rfl
    rw [blocks, hdrop, hc, ih (i + 1) (by omega)]
    have e : i + 1 + n = i + (n + 1) := by omega
    rw [e]

theorem beBytes_four (w : Nat) :
    beBytes 4 w = [w / 2 ^ 24 % 256, w / 2 ^ 16 % 256, w / 2 ^ 8 % 256, w % 256] := by
  have hr : List.range 4 = [0, 1, 2, 3] := by decide
  simp [beBytes, hr, Nat.shiftRight_eq_div_pow]

/-- The model of `crypto/sha256` computes the digest of FIPS 180-4. -/
theorem sha256_eq_fipsDigest (msg : List Nat) : sha256 msg = fipsDigest msg := by
  unfold sha256 fipsDigest
  have hb := blocks_eq_fipsH (fipsPadded msg) ((fipsPadded msg).length / 64) 0
    (by have := Nat.div_mul_le_self (fipsPadded msg).length 64; omega)
  simp only [Nat.mul_zero, List.drop_zero, Nat.zero_add] at hb
  have hf : beBytes 4 = fun w => [w / 2 ^ 24 % 256, w / 2 ^ 16 % 256, w / 2 ^ 8 % 256, w % 256] :=
    funext beBytes_four
  simp only [pad_eq_fipsPadded]
  rw [hf]
  have h0 : fipsH (fipsPadded msg) 0 = sha256Init := rfl
  rw [h0] at hb
  rw [hb]

theorem toDigits_byte (b : Nat) (h : b < 256) :
    (if b < 16 then ['0'] else []) ++ Nat.toDigits 16 b = hexByte b := by
  interval_cases b <;> rfl

theorem sha256_lt (msg : List Nat) (b : Nat) (h : b ∈ sha256 msg) : b < 256 := by
  simp only [sha256, List.mem_flatMap] at h
  obtain ⟨w, -, hb⟩ := h
  exact beBytes_lt 4 w b hb

/-- The hex encoding of the model is the hex text, on bytes. -/
theorem hexEncode_eq_hexText (bytes : List Nat) (h : ∀ b ∈ bytes, b < 256) :
    (hexEncode bytes).data = hexText bytes := by
  unfold hexEncode hexText
  induction bytes with
  | nil => rfl
  | cons b bs ih =>
    have ih2 : bs.flatMap hexByte
        = bs.flatMap (fun b => (if b < 16 then ['0'] else []) ++ Nat.toDigits 16 b) :=
      ih (fun x hx => h x (List.mem_cons_of_mem _ hx))
    simp only [List.flatMap_cons]
    rw [ih2, toDigits_byte b (h b (by simp))]

theorem utf8_eq_toUTF8 (s : String) : utf8 s = s.toUTF8.data.toList.map UInt8.toNat := by
  unfold utf8 String.toUTF8
  simp [List.map_flatMap]

/-- Digests of five paths, as `sha256sum` gives them: the empty path, two
short ones, one with characters of two, three and four bytes, and one of 72
bytes whose padded message has two blocks. -/
theorem hash_vectors :
    hash "" = "e3b0c44298fc" ∧ hash "abc" = "ba7816bf8f01"
      ∧ hash "lockfile.json" = "c8c9c2f73bbe"
      ∧ hash (String.mk [Char.ofNat 0xe9, Char.ofNat 0x20ac, Char.ofNat 0x1f600])
          = "df9226927fd5"
      ∧ hash "/home/user/projects/monorepo/services/payments/backend/package-lock.json"
          = "c1d96e5a1994" := by
  decide

theorem hash_vectors_short : hash "a" = "ca978112ca1b" ∧ hash "b" = "3e23e8160039" := by
  decide

/-- C10. For every path, the empty one included, `hash` returns a value (the
slice `[:12]` is within the 64 characters of the hex text of a 32-byte
digest): a string of exactly 12 characters, each a lowercase hexadecimal
digit, equal to the first 12 characters of the hex text of the SHA-256 digest,
as FIPS 180-4 defines it, of the UTF-8 bytes of the path. The identifier
depends on the path: known digests of five paths are reproduced, and the
paths `a` and `b` get different identifiers. -/
theorem hash_is_twelve_hex_digits (path : String) :
    (hash path).length = 12
      ∧ (∀ c ∈ (hash path).data, c ∈ "0123456789abcdef".data)
      ∧ (hash path).data
        = (hexText (fipsDigest (path.toUTF8.data.toList.map UInt8.toNat))).take 12
      ∧ (fipsDigest (path.toUTF8.data.toList.map UInt8.toNat)).length = 32
      ∧ (hexText (fipsDigest (path.toUTF8.data.toList.map UInt8.toNat))).length = 64
      ∧ hash "" = "e3b0c44298fc" ∧ hash "abc" = "ba7816bf8f01"
      ∧ hash "lockfile.json" = "c8c9c2f73bbe"
      ∧ hash (String.mk [Char.ofNat 0xe9, Char.ofNat 0x20ac, Char.ofNat 0x1f600])
          = "df9226927fd5"
      ∧ hash "/home/user/projects/monorepo/services/payments/backend/package-lock.json"
          = "c1d96e5a1994"
      ∧ hash "a" ≠ hash "b" := by
  have h64 := hexEncode_sha256_length (utf8 path)
  have hspec : (hexEncode (sha256 (utf8 path))).data
      = hexText (fipsDigest (path.toUTF8.data.toList.map UInt8.toNat)) := by
    rw [hexEncode_eq_hexText _ (sha256_lt (utf8 path)), sha256_eq_fipsDigest, utf8_eq_toUTF8]
  have hdef : (hash path).data = (hexEncode (sha256 (utf8 path))).data.take 12 := rfl
  refine ⟨?_, ?_, by rw [hdef, hspec], ?_, by rw [← hspec, h64], hash_vectors.1,
    hash_vectors.2.1, hash_vectors.2.2.1, hash_vectors.2.2.2.1, hash_vectors.2.2.2.2, ?_⟩
  · show ((hexEncode (sha256 (utf8 path))).data.take 12).length = 12
    rw [List.length_take, h64]
    rfl
  · intro c hc
    exact hexEncode_chars _ c (List.mem_of_mem_take hc)
  · rw [← utf8_eq_toUTF8, ← sha256_eq_fipsDigest]
    exact sha256_length _
  · rw [hash_vectors_short.1, hash_vectors_short.2]
    decide

/-! ## Theorems: what `show` displays -/

theorem showLoop_first_match (sprint : Color → String → String) (pre : List Result) (r : Result)
    (post : List Result) (arg : String) (hpre : ∀ x ∈ pre, hash x.Source.Path ≠ arg)
    (hr : hash r.Source.Path = arg) :
    showLoop sprint (pre ++ r :: post) arg
      = (showPackages sprint r.Packages ["Source: " ++ r.Source.Path ++ "\n"], .ok ()) := by
  induction pre with
  | nil => simp [showLoop, hr]
  | cons x pre ih =>
    have hx : hash x.Source.Path ≠ arg := hpre x (by simp)
    simp only [List.cons_append, showLoop, ne_eq, hx, not_false_eq_true, if_true]
    exact ih (fun y hy => hpre y (List.mem_cons_of_mem _ hy))

theorem exists_first_match (rs : List Result) (arg : String)
    (h : ∃ x ∈ rs, hash x.Source.Path = arg) :
    ∃ pre r post, rs = pre ++ r :: post
      ∧ (∀ x ∈ pre, hash x.Source.Path ≠ arg) ∧ hash r.Source.Path = arg := by
  induction rs with
  | nil =>
    obtain ⟨x, hx, -⟩ := h
    simp at hx
  | cons y rs ih =>
    by_cases hy : hash y.Source.Path = arg
    · exact ⟨[], y, rs, rfl, by simp, hy⟩
    · obtain ⟨x, hx, hxa⟩ := h
      rcases List.mem_cons.1 hx with rfl | hx
      · exact absurd hxa hy
      · obtain ⟨pre, r, post, hsplit, hpre, hr⟩ := ih ⟨x, hx, hxa⟩
        refine ⟨y :: pre, r, post, by rw [hsplit]; rfl, ?_, hr⟩
        intro z hz
        rcases List.mem_cons.1 hz with rfl | hz
        · exact hy
        · exact hpre z hz

/-- C11. When some source of the report has `hash(path)` equal to the token,
there is a first one in report order, and `show` displays exactly that one:
its header and its vulnerability blocks, whatever sources follow it. In
particular, of two sources with the same path only the first is shown. -/
theorem show_displays_first_match (sprint : Color → String → String)
    (results : OSVScannerResult) (arg : String) :
    ((∃ x ∈ results.Results, hash x.Source.Path = arg) →
        ∃ pre r post, results.Results = pre ++ r :: post
          ∧ (∀ x ∈ pre, hash x.Source.Path ≠ arg) ∧ hash r.Source.Path = arg)
      ∧ (∀ (pre : List Result) (r : Result) (post : List Result),
          results.Results = pre ++ r :: post → (∀ x ∈ pre, hash x.Source.Path ≠ arg) →
          hash r.Source.Path = arg →
            runShowCommand sprint results arg
                = (showPackages sprint r.Packages ["Source: " ++ r.Source.Path ++ "\n"], .ok ())
              ∧ ∀ post2 : List Result,
                  runShowCommand sprint ⟨pre ++ r :: post2⟩ arg
                    = runShowCommand sprint results arg)
      ∧ ∀ (r1 r2 : Result) (rest : List Result), r1.Source.Path = r2.Source.Path →
          runShowCommand sprint ⟨r1 :: r2 :: rest⟩ (hash r2.Source.Path)
            = (showPackages sprint r1.Packages ["Source: " ++ r1.Source.Path ++ "\n"],
               .ok ()) := by
  refine ⟨exists_first_match results.Results arg, ?_, ?_⟩
  · intro pre r post hsplit hpre hr
    unfold runShowCommand
    refine ⟨by rw [hsplit]; exact showLoop_first_match sprint pre r post arg hpre hr, ?_⟩
    intro post2
    rw [hsplit, showLoop_first_match sprint pre r post arg hpre hr]
    exact showLoop_first_match sprint pre r post2 arg hpre hr
  · intro r1 r2 rest hpath
    unfold runShowCommand
    exact showLoop_first_match sprint [] r1 (r2 :: rest) _ (by simp) (by rw [hpath])

/-- C11, witness: on the report with two sources of path `lockfile.json`, the
token of that path shows the header and the single block of `left-pad`. -/
theorem show_displays_first_match_witness :
    runShowCommand (fun _ t => t) twinReport (hash "lockfile.json")
      = (["Source: lockfile.json\n",
          "\nleft-pad 1.0.0: (GHSA-0000) summary (fix: 1.0.1)\ndetails\n"], .ok ()) :=
  ((show_displays_first_match (fun _ t => t) twinReport (hash "lockfile.json")).2.1
    [] _ _ rfl (by simp) rfl).1

theorem showVulns_foldl (sprint : Color → String → String) (pkg : String)
    (vulns : List Vulnerability) (out : List String) :
    vulns.foldl (fun out vuln => out ++ [vulnBlock sprint pkg vuln]) out
      = out ++ vulns.map (fun vuln => vulnBlock sprint pkg vuln) := by
  induction vulns generalizing out with
  | nil => simp
  | cons v vulns ih =>
    rw [List.foldl_cons, ih]
    simp

theorem showPackages_eq (sprint : Color → String → String) (pkgs : List ScannedPackage)
    (out : List String) :
    showPackages sprint pkgs out
      = out ++ pkgs.flatMap
          (fun rp => rp.Vulnerabilities.map (fun vuln => vulnBlock sprint (pkgLabel rp) vuln)) := by
  unfold showPackages
  induction pkgs generalizing out with
  | nil => simp
  | cons rp pkgs ih =>
    rw [List.foldl_cons, ih, showVulns_foldl]
    simp

/-- C12. For the source matched by the token, `show` writes the header and then
one block per vulnerability entry: the packages in document order, within a
package its vulnerabilities in document order, none dropped and none
reordered; the label at the head of a block is the name of the owning
package, one space, and its version. -/
theorem show_blocks_in_document_order (sprint : Color → String → String)
    (results : OSVScannerResult) (arg : String) (pre : List Result) (r : Result)
    (post : List Result) (hsplit : results.Results = pre ++ r :: post)
    (hpre : ∀ x ∈ pre, hash x.Source.Path ≠ arg) (hr : hash r.Source.Path = arg) :
    (runShowCommand sprint results arg).1
        = ("Source: " ++ r.Source.Path ++ "\n")
          :: r.Packages.flatMap
              (fun rp =>
                rp.Vulnerabilities.map
                  (fun vuln =>
                    "\n" ++ (rp.Package.Name ++ " " ++ rp.Package.Version) ++ ": "
                      ++ sprint .FgRed ("(" ++ vuln.ID ++ ") " ++ vuln.Summary)
                      ++ " (fix: " ++ fixString vuln ++ ")\n"
                      ++ sprint .FgHiBlack (normalize vuln.Details) ++ "\n"))
      ∧ (runShowCommand sprint results arg).1.length
        = 1 + (r.Packages.map (fun rp => rp.Vulnerabilities.length)).sum := by
  have h : (runShowCommand sprint results arg).1
      = ("Source: " ++ r.Source.Path ++ "\n")
        :: r.Packages.flatMap
            (fun rp => rp.Vulnerabilities.map (fun vuln => vulnBlock sprint (pkgLabel rp) vuln))
      := by
    unfold runShowCommand
    rw [hsplit, showLoop_first_match sprint pre r post arg hpre hr, showPackages_eq]
    rfl
  refine ⟨h, ?_⟩
  rw [h, List.length_cons, List.length_flatMap]
  have hm : (List.length ∘ fun rp : ScannedPackage =>
      rp.Vulnerabilities.map (fun vuln => vulnBlock sprint (pkgLabel rp) vuln))
      = fun rp => rp.Vulnerabilities.length := by
    funext rp
    exact List.length_map _ _
  rw [hm]
  omega

/-- C12, witness: the three blocks of `orderedReport` come out in document
order, each under the label of its own package. -/
theorem show_blocks_in_document_order_witness :
    (runShowCommand (fun _ t => t) orderedReport (hash "go.mod")).1
      = ["Source: go.mod\n",
         "\nalpha 1.0.0: (A-1) one (fix: )\nd1\n",
         "\nalpha 1.0.0: (A-2) two (fix: )\nd2\n",
         "\nbeta 2.0.0: (B-1) three (fix: )\nd3\n"] :=
  (show_blocks_in_document_order (fun _ t => t) orderedReport (hash "go.mod") [] _ []
    rfl (by simp) rfl).1

/-! ## Theorems: the fix list -/

/-- C13. The `fixed` slice built by `show` has exactly one entry per affected
entry, in document order: the `", "`-join of the present `fixed` values of the
entry, which is the empty string when no event of the entry has one. The two
affected entries with events `fixed: "1.2.3"` and `introduced: "0.1.0"` give
the list `["1.2.3", ""]`. -/
theorem fixedList_one_entry_per_affected (vuln : Vulnerability) :
    fixedList vuln = vuln.Affected.map (fun aff => stringsJoin (presentFixed aff) ", ")
      ∧ (fixedList vuln).length = vuln.Affected.length
      ∧ (∀ aff : Affected, (∀ r ∈ aff.Ranges, ∀ e ∈ r.Events, e.Fixed = "") →
          stringsJoin (presentFixed aff) ", " = "")
      ∧ fixedList exampleVuln = ["1.2.3", ""] := by
  refine ⟨fixedList_eq vuln, by simp [fixedList_eq], ?_, by decide⟩
  intro aff h
  have : presentFixed aff = [] := by
    by_contra hne
    obtain ⟨r, hr, e, he, hfix⟩ := (presentFixed_ne_nil_iff aff).1 hne
    exact hfix (h r hr e he)
  rw [this]
  rfl

/-- C13, witness: an affected entry whose only event has no `fixed` value
contributes the empty string. -/
theorem fixedList_one_entry_per_affected_witness :
    stringsJoin (presentFixed ⟨[⟨"SEMVER", [⟨"0.1.0", ""⟩]⟩]⟩) ", " = "" :=
  (fixedList_one_entry_per_affected exampleVuln).2.2.1 ⟨[⟨"SEMVER", [⟨"0.1.0", ""⟩]⟩]⟩
    (by decide)

theorem events_filter_fixed (es : List Event) :
    (((es.filter (fun e => e.Fixed ≠ "")).map (fun e => e.Fixed)).filter (fun x => x ≠ ""))
      = (es.map (fun e => e.Fixed)).filter (fun x => x ≠ "") := by
  induction es with
  | nil => rfl
  | cons e es ihe =>
    by_cases he : e.Fixed = ""
    · simpa [List.filter_cons, he] using ihe
    · simpa [List.filter_cons, he] using ihe

theorem presentFixed_dropEmptyFixed (aff : Affected) :
    presentFixed aff.dropEmptyFixed = presentFixed aff := by
  unfold presentFixed Affected.dropEmptyFixed
  induction aff.Ranges with
  | nil => rfl
  | cons r rs ih =>
    simp only [List.map_cons, List.flatMap_cons, List.map_append, List.filter_append, ih]
    congr 1
    exact events_filter_fixed r.Events

/-- C15. Deleting from a vulnerability every event whose `Fixed` is the empty
string (which is also how an event without `fixed` field is decoded) changes
neither the `fixed` slice nor the fix-versions string computed by `show`. -/
theorem fixString_ignores_empty_fixed (vuln : Vulnerability) :
    fixString vuln.dropEmptyFixed = fixString vuln
      ∧ fixedList vuln.dropEmptyFixed = fixedList vuln
      ∧ ∀ e ∈ (vuln.dropEmptyFixed.Affected.flatMap (fun aff => aff.Ranges)).flatMap
            (fun r => r.Events), e.Fixed ≠ "" := by
  have h : fixedList vuln.dropEmptyFixed = fixedList vuln := by
    rw [fixedList_eq, fixedList_eq]
    simp [Vulnerability.dropEmptyFixed, Function.comp_def, presentFixed_dropEmptyFixed]
  refine ⟨by unfold fixString; rw [h], h, ?_⟩
  intro e he
  simp only [Vulnerability.dropEmptyFixed, List.mem_flatMap, List.mem_map] at he
  obtain ⟨r, ⟨aff, ⟨a0, -, rfl⟩, hr⟩, he⟩ := he
  simp only [Affected.dropEmptyFixed, List.mem_map] at hr
  obtain ⟨r0, -, rfl⟩ := hr
  simp only [Range.dropEmptyFixed, List.mem_filter, decide_eq_true_eq] at he
  exact he.2

/-! ## Theorems: the rows of `sources` -/

/-- C14. For every report `sources` makes its two writes (there is no failing
path) and hands the table exactly one row per source, in report order, the row
of a source holding `hash(path)`, the path and the count; so there are as many
rows as sources, and the empty report gives no row and the total 0. -/
theorem sources_one_row_per_source (render : Table → String) (results : OSVScannerResult) :
    (sourcesLoop results).2.Rows
        = results.Results.map
            (fun r => [hash r.Source.Path, r.Source.Path, toString (vulnCount r)])
      ∧ (sourcesLoop results).2.Rows.length = results.Results.length
      ∧ (sourcesLoop results).2.Rows.map (fun row => (row.getD 0 "", row.getD 1 ""))
        = results.Results.map (fun r => (hash r.Source.Path, r.Source.Path))
      ∧ runSourcesCommand render results
        = ["Total of vulnerabilities: " ++ toString (sourcesLoop results).1 ++ "\n\n",
           render (sourcesLoop results).2 ++ "\n"]
      ∧ (sourcesLoop ⟨[]⟩).2.Rows = []
      ∧ runSourcesCommand render ⟨[]⟩
        = ["Total of vulnerabilities: 0\n\n",
           render ⟨["source id", "source", "total"], [⟨"total", .DscNumeric⟩], []⟩ ++ "\n"] := by
  refine ⟨by rw [sourcesLoop_eq], by simp [sourcesLoop_eq], ?_, rfl, rfl, rfl⟩
  simp [sourcesLoop_eq, Function.comp_def]

/-! ## Theorems: the normalizer, character by character -/

theorem runs_example :
    runs "a\r\n\nb\rc".data = [['a'], ['\r', '\n', '\n'], ['b'], ['\r'], ['c']]
      ∧ collapseRuns "a\r\n\nb\rc".data = "a\n\nb\rc".data := by
  decide

theorem runs_cons (c : Char) (t : List Char) :
    runs (c :: t)
      = (c :: t.takeWhile (fun x => isBreakChar x == isBreakChar c))
        :: runs (t.dropWhile (fun x => isBreakChar x == isBreakChar c)) := by
  induction t generalizing c with
  | nil => rfl
  | cons d u ih =>
    have hd := ih d
    by_cases h : isBreakChar c = isBreakChar d
    · rw [runs, hd]
      simp only [h, if_true, List.takeWhile_cons, List.dropWhile_cons, beq_self_eq_true]
    · have h2 : (isBreakChar d == isBreakChar c) = false := by
        rw [beq_eq_false_iff_ne]
        exact fun e => h e.symm
      rw [runs, hd]
      simp only [h, if_false, List.takeWhile_cons, List.dropWhile_cons, h2]
      rw [← hd]
      simp

theorem runs_flatten (s : List Char) : (runs s).flatten = s := by
  obtain ⟨n, hn⟩ : ∃ n, s.length = n := ⟨_, rfl⟩
  induction n using Nat.strong_induction_on generalizing s with
  | _ n ih =>
    cases s with
    | nil => rfl
    | cons c t =>
      have hl : (t.dropWhile (fun x => isBreakChar x == isBreakChar c)).length ≤ t.length :=
        (List.dropWhile_sublist _).length_le
      simp only [List.length_cons] at hn
      rw [runs_cons, List.flatten_cons, ih _ (by omega) _ rfl, List.cons_append,
        List.takeWhile_append_dropWhile]

theorem runs_homogeneous (s : List Char) :
    ∀ g ∈ runs s, g ≠ [] ∧ ∀ x ∈ g, ∀ y ∈ g, isBreakChar x = isBreakChar y := by
  obtain ⟨n, hn⟩ : ∃ n, s.length = n := ⟨_, rfl⟩
  induction n using Nat.strong_induction_on generalizing s with
  | _ n ih =>
    cases s with
    | nil => simp [runs]
    | cons c t =>
      have hl : (t.dropWhile (fun x => isBreakChar x == isBreakChar c)).length ≤ t.length :=
        (List.dropWhile_sublist _).length_le
      simp only [List.length_cons] at hn
      intro g hg
      rw [runs_cons] at hg
      rcases List.mem_cons.1 hg with rfl | hg
      · refine ⟨by simp, ?_⟩
        have hc : ∀ x ∈ c :: t.takeWhile (fun x => isBreakChar x == isBreakChar c),
            isBreakChar x = isBreakChar c := by
          intro x hx
          rcases List.mem_cons.1 hx with rfl | hx
          · rfl
          · simpa using List.mem_takeWhile_imp hx
        intro x hx y hy
        rw [hc x hx, hc y hy]
      · exact ih _ (by omega) _ rfl g hg

theorem runs_maximal (s : List Char) :
    (runs s).Chain' (fun g h => ∀ x ∈ g, ∀ y ∈ h, isBreakChar x ≠ isBreakChar y) := by
  induction s with
  | nil => exact List.chain'_nil
  | cons c t ih =>
    have hom := runs_homogeneous t
    rw [runs]
    rcases hr : runs t with _ | ⟨_ | ⟨d, g⟩, gs⟩
    · exact List.chain'_singleton _
    · have := (hom [] (by rw [hr]; simp)).1
      exact absurd rfl this
    · rw [hr] at ih hom
      have hdg := (hom (d :: g) (by simp)).2
      simp only
      by_cases h : isBreakChar c = isBreakChar d
      · rw [if_pos h]
        rw [List.chain'_cons'] at ih ⊢
        refine ⟨?_, ih.2⟩
        intro y hy x hx z hz
        rcases List.mem_cons.1 hx with rfl | hx
        · rw [h]
          exact ih.1 y hy d (by simp) z hz
        · exact ih.1 y hy x hx z hz
      · rw [if_neg h, List.chain'_cons']
        refine ⟨?_, ih⟩
        intro y hy x hx z hz
        simp only [List.head?_cons, Option.mem_def, Option.some.injEq] at hy
        subst hy
        simp only [List.mem_singleton] at hx
        subst hx
        rw [hdg z hz d (by simp)]
        exact h

theorem normalizeChars_nonbreak_append (nb rest : List Char)
    (h : ∀ x ∈ nb, isBreakChar x = false) :
    normalizeChars (nb ++ rest) = nb ++ normalizeChars rest := by
  induction nb with
  | nil => rfl
  | cons c nb ih =>
    have hc : isBreakChar c = false := h c (by simp)
    rw [List.cons_append, normalizeChars_cons]
    simp only [hc, Bool.false_eq_true, false_and, if_false]
    rw [ih (fun x hx => h x (List.mem_cons_of_mem _ hx))]
    rfl

theorem takeWhile_of_startsWithBreak_false (t : List Char) (h : startsWithBreak t = false) :
    t.takeWhile isBreakChar = [] := by
  cases t with
  | nil => rfl
  | cons d u =>
    simp only [startsWithBreak] at h
    simp [List.takeWhile_cons, h]

/-- The normalizer of the program computes the replacement of maximal runs. -/
theorem normalizeChars_eq_collapseRuns (s : List Char) : normalizeChars s = collapseRuns s := by
  obtain ⟨n, hn⟩ : ∃ n, s.length = n := ⟨_, rfl⟩
  induction n using Nat.strong_induction_on generalizing s with
  | _ n ih =>
    cases s with
    | nil => rfl
    | cons c t =>
      simp only [List.length_cons] at hn
      have hl : (t.dropWhile (fun x => isBreakChar x == isBreakChar c)).length ≤ t.length :=
        (List.dropWhile_sublist _).length_le
      have ih1 := ih _ (by omega) (t.dropWhile (fun x => isBreakChar x == isBreakChar c)) rfl
      unfold collapseRuns at ih1 ⊢
      rw [runs_cons, List.map_cons, List.flatten_cons, ← ih1]
      by_cases hc : isBreakChar c = true
      · have hp : (fun x => isBreakChar x == isBreakChar c) = isBreakChar := by
          funext x
          rw [hc]
          simp
        rw [hp, normalizeChars_cons]
        by_cases hs : startsWithBreak t = true
        · rw [if_pos ⟨hc, hs⟩]
          have hrun : collapseRun (c :: t.takeWhile isBreakChar) = ['\n', '\n'] := by
            unfold collapseRun
            rw [if_pos]
            constructor
            · cases t with
              | nil => simp [startsWithBreak] at hs
              | cons d u =>
                simp only [startsWithBreak] at hs
                simp [List.takeWhile_cons, hs]
            · rw [List.all_eq_true]
              intro x hx
              rcases List.mem_cons.1 hx with rfl | hx
              · exact hc
              · exact List.mem_takeWhile_imp hx
          rw [hrun]
          rfl
        · simp only [Bool.not_eq_true] at hs
          have hcond : ¬ (isBreakChar c = true ∧ startsWithBreak t = true) := by
            rintro ⟨-, h2⟩
            rw [hs] at h2
            exact Bool.noConfusion h2
          rw [if_neg hcond, takeWhile_of_startsWithBreak_false t hs,
            dropWhile_of_startsWithBreak_false t hs]
          rfl
      · simp only [Bool.not_eq_true] at hc
        have hall : ∀ x ∈ c :: t.takeWhile (fun x => isBreakChar x == isBreakChar c),
            isBreakChar x = false := by
          intro x hx
          rcases List.mem_cons.1 hx with rfl | hx
          · exact hc
          · have := List.mem_takeWhile_imp hx
            rw [hc] at this
            simpa using this
        have hrun : collapseRun (c :: t.takeWhile (fun x => isBreakChar x == isBreakChar c))
            = c :: t.takeWhile (fun x => isBreakChar x == isBreakChar c) := by
          unfold collapseRun
          rw [if_neg]
          rintro ⟨-, h2⟩
          rw [List.all_eq_true] at h2
          have := h2 c (by simp)
          rw [hc] at this
          exact Bool.noConfusion this
        rw [hrun, ← normalizeChars_nonbreak_append _ _ hall, List.cons_append,
          List.takeWhile_append_dropWhile]

/-- C16. The output of the normalizer is the text with every maximal run of
two or more characters among carriage return and line feed replaced by exactly
two line feeds, and every other character (an isolated carriage return or
line feed included) unchanged and in place: the runs partition the text, each
is non-empty and made of break characters only or of other characters only,
and neighbouring runs are of different kinds. -/
theorem normalize_replaces_maximal_runs (s : String) :
    (normalize s).data = ((runs s.data).map collapseRun).flatten
      ∧ (runs s.data).flatten = s.data
      ∧ (∀ g ∈ runs s.data, g ≠ [] ∧ ∀ x ∈ g, ∀ y ∈ g, isBreakChar x = isBreakChar y)
      ∧ (runs s.data).Chain' (fun g h => ∀ x ∈ g, ∀ y ∈ h, isBreakChar x ≠ isBreakChar y)
      ∧ ∀ g : List Char,
          collapseRun g
            = if 2 ≤ g.length ∧ (∀ x ∈ g, isBreakChar x = true) then ['\n', '\n'] else g :=
  ⟨normalizeChars_eq_collapseRuns s.data, runs_flatten s.data, runs_homogeneous s.data,
    runs_maximal s.data, fun g => by simp [collapseRun]⟩

end OsvViewer
